import Mathlib

/-!
# Verification of the crawl-frontier core of a web scraper

This file gives a shallow embedding, in Lean 4, of the crawl frontier of the
scraper (the `URLManager` class of `src/url_manager.py`, the checkpoint logic
and main loop of `src/scraper.py`), together with the parts of Python's
`urllib.parse` standard library (CPython 3.11) that `URLManager.normalize_url`
calls: `urlparse`/`urlsplit`, `urlunparse`/`urlunsplit`, `urljoin`,
`parse_qs`/`parse_qsl`, `urlencode` with `quote_plus`, and
`unquote`/`unquote_plus`.

Python strings are modelled as `List Char` (Lean `String` at the interface).
Documented simplifications, none of which affect the theorems below:

* Python's `str.lower()` is modelled by its ASCII case mapping
  (`pyLowerChar`); the full Unicode mapping differs only on non-ASCII letters.
* `urlsplit`'s `_checknetloc` (which rejects certain non-ASCII authorities
  whose NFKC normalization introduces delimiters) is a no-op on ASCII input
  and is omitted.
* `hashlib.md5(url).hexdigest()` is modelled by the identity injection
  `urlHashFn`: the frontier's dedup logic relies only on the fingerprint
  being a deterministic function of the canonical URL string.
* Python `set`s are modelled as duplicate-free lists in insertion order
  (`setInsert`); Python `dict`s as association lists in insertion order.
* `bytes.decode('utf-8', errors='replace')` is modelled by a decoder that
  follows the maximal-subpart replacement policy of CPython's UTF-8 decoder
  (`utf8DecodeReplace`); the theorems only exercise it on valid encodings.
-/

namespace Scraper

/-! ## Basic character and list utilities -/

/-- The bytes removed from URLs by `urllib.parse.urlsplit`
(`_UNSAFE_URL_BYTES_TO_REMOVE = ['\t', '\r', '\n']`). -/
def badUrlChar (c : Char) : Bool :=
  c = '\t' || c = '\r' || c = '\n'

/-- `url.replace('\t','').replace('\r','').replace('\n','')`. -/
def cleanUrl (l : List Char) : List Char :=
  l.filter (fun c => !badUrlChar c)

/-- ASCII case mapping of `str.lower()` (see the header note). -/
def pyLowerChar (c : Char) : Char :=
  if 'A' ≤ c ∧ c ≤ 'Z' then Char.ofNat (c.toNat + 32) else c

def pyLowerStr (l : List Char) : List Char :=
  l.map pyLowerChar

def isAsciiUpper (c : Char) : Bool := 'A' ≤ c ∧ c ≤ 'Z'
def isAsciiLower (c : Char) : Bool := 'a' ≤ c ∧ c ≤ 'z'
def isAsciiAlpha (c : Char) : Bool := isAsciiUpper c || isAsciiLower c
def isAsciiDigit (c : Char) : Bool := '0' ≤ c ∧ c ≤ '9'

/-- `scheme_chars` of `urllib.parse`: letters, digits and `+-.`. -/
def schemeChar (c : Char) : Bool :=
  isAsciiAlpha c || isAsciiDigit c || c = '+' || c = '-' || c = '.'

/-- `s.split(sep, 1)` when `sep` occurs: the parts before and after the first
occurrence of `sep`; `none` when `sep` does not occur. -/
def breakAtChar (sep : Char) : List Char → Option (List Char × List Char)
  | [] => none
  | c :: cs =>
    if c = sep then some ([], cs)
    else (breakAtChar sep cs).map (fun p => (c :: p.1, p.2))

/-- `s.split(sep)` (on a nonempty result pattern: splitting `[]` gives `[[]]`,
as in Python where `''.split(sep) == ['']`). -/
def splitOnChar (sep : Char) : List Char → List (List Char)
  | [] => [[]]
  | c :: cs =>
    match splitOnChar sep cs with
    | [] => [[]]
    | h :: t => if c = sep then [] :: h :: t else (c :: h) :: t

/-- `sep.join(parts)`. -/
def joinChar (sep : Char) : List (List Char) → List Char
  | [] => []
  | [p] => p
  | p :: ps => p ++ sep :: joinChar sep ps

/-- `s.rstrip('/')`. -/
def rstripSlashes (l : List Char) : List Char :=
  (l.reverse.dropWhile (fun c => c = '/')).reverse

/-- `s[:-n]`. -/
def dropLastN (n : Nat) (l : List Char) : List Char :=
  l.take (l.length - n)

/-- `s.endswith(suffix)`. -/
def hasSuffix (l suf : List Char) : Bool :=
  decide (l.reverse.take suf.length = suf.reverse)

/-- `s.startswith(pre)`. -/
def hasPre (l pre : List Char) : Bool :=
  decide (l.take pre.length = pre)

/-- `pat in s` (substring containment). -/
def containsSeq (pat : List Char) : List Char → Bool
  | [] => decide (pat = [])
  | c :: cs => hasPre (c :: cs) pat || containsSeq pat cs

/-- `(l.map f).join`, with definitional equations convenient for proofs. -/
def concatMap (f : α → List β) : List α → List β
  | [] => []
  | a :: as => f a ++ concatMap f as

/-! ## Percent-encoding: `quote_plus`, `unquote_plus` (CPython 3.11)

`quote` encodes the UTF-8 bytes of the string, keeping bytes in
`_ALWAYS_SAFE` (letters, digits, `_.-~`) plus the caller's safe set literal;
`quote_plus` additionally turns spaces into `+`.  `unquote` decodes maximal
runs of `%XX` escapes as UTF-8 with `errors='replace'`; `unquote_plus` first
turns `+` into spaces. -/

def hexDigitVal (c : Char) : Option Nat :=
  if '0' ≤ c ∧ c ≤ '9' then some (c.toNat - '0'.toNat)
  else if 'a' ≤ c ∧ c ≤ 'f' then some (c.toNat - 'a'.toNat + 10)
  else if 'A' ≤ c ∧ c ≤ 'F' then some (c.toNat - 'A'.toNat + 10)
  else none

def hexUpperChar (n : Nat) : Char :=
  if n < 10 then Char.ofNat ('0'.toNat + n) else Char.ofNat ('A'.toNat + n - 10)

/-- `_ALWAYS_SAFE`: never percent-encoded by `quote` (safe set is empty for
the `urlencode(..., doseq=True)` call in `normalize_url`). -/
def alwaysSafeChar (c : Char) : Bool :=
  isAsciiAlpha c || isAsciiDigit c || c = '_' || c = '.' || c = '-' || c = '~'

/-- UTF-8 encoding of one scalar value. -/
def utf8EncodeChar (c : Char) : List Nat :=
  let v := c.toNat
  if v < 0x80 then [v]
  else if v < 0x800 then [0xC0 + v / 0x40, 0x80 + v % 0x40]
  else if v < 0x10000 then
    [0xE0 + v / 0x1000, 0x80 + (v / 0x40) % 0x40, 0x80 + v % 0x40]
  else
    [0xF0 + v / 0x40000, 0x80 + (v / 0x1000) % 0x40,
     0x80 + (v / 0x40) % 0x40, 0x80 + v % 0x40]

def utf8Encode (s : List Char) : List Nat :=
  concatMap utf8EncodeChar s

/-- A UTF-8 continuation byte. -/
def contByte (b : Nat) : Bool :=
  0x80 ≤ b ∧ b ≤ 0xBF

def replacementChar : Char := Char.ofNat 0xFFFD

/-- UTF-8 decoding with `errors='replace'` (maximal-subpart policy: an
invalid sequence consumes its longest valid prefix and yields one
replacement character). -/
def utf8DecodeReplace : List Nat → List Char
  | [] => []
  | b :: bs =>
    if b < 0x80 then Char.ofNat b :: utf8DecodeReplace bs
    else if 0xC2 ≤ b ∧ b ≤ 0xDF then
      match bs with
      | [] => [replacementChar]
      | b1 :: bs1 =>
        if contByte b1 then
          Char.ofNat ((b - 0xC0) * 0x40 + (b1 - 0x80)) :: utf8DecodeReplace bs1
        else replacementChar :: utf8DecodeReplace (b1 :: bs1)
    else if 0xE0 ≤ b ∧ b ≤ 0xEF then
      match bs with
      | [] => [replacementChar]
      | b1 :: bs1 =>
        if contByte b1 ∧ (b = 0xE0 → 0xA0 ≤ b1) ∧ (b = 0xED → b1 ≤ 0x9F) then
          match bs1 with
          | [] => [replacementChar]
          | b2 :: bs2 =>
            if contByte b2 then
              Char.ofNat ((b - 0xE0) * 0x1000 + (b1 - 0x80) * 0x40 + (b2 - 0x80))
                :: utf8DecodeReplace bs2
            else replacementChar :: utf8DecodeReplace (b2 :: bs2)
        else replacementChar :: utf8DecodeReplace (b1 :: bs1)
    else if 0xF0 ≤ b ∧ b ≤ 0xF4 then
      match bs with
      | [] => [replacementChar]
      | b1 :: bs1 =>
        if contByte b1 ∧ (b = 0xF0 → 0x90 ≤ b1) ∧ (b = 0xF4 → b1 ≤ 0x8F) then
          match bs1 with
          | [] => [replacementChar]
          | b2 :: bs2 =>
            if contByte b2 then
              match bs2 with
              | [] => [replacementChar]
              | b3 :: bs3 =>
                if contByte b3 then
                  Char.ofNat ((b - 0xF0) * 0x40000 + (b1 - 0x80) * 0x1000 +
                      (b2 - 0x80) * 0x40 + (b3 - 0x80)) :: utf8DecodeReplace bs3
                else replacementChar :: utf8DecodeReplace (b3 :: bs3)
            else replacementChar :: utf8DecodeReplace (b2 :: bs2)
        else replacementChar :: utf8DecodeReplace (b1 :: bs1)
    else replacementChar :: utf8DecodeReplace bs

/-- `'%{:02X}'.format(b)`. -/
def escapeByte (b : Nat) : List Char :=
  ['%', hexUpperChar (b / 16), hexUpperChar (b % 16)]

/-- One character under `quote_plus(·, safe='')`. -/
def pyQuotePlusChar (c : Char) : List Char :=
  if alwaysSafeChar c then [c]
  else if c = ' ' then ['+']
  else concatMap escapeByte (utf8EncodeChar c)

/-- `quote_plus(s, safe='')`, the `quote_via` used by
`urlencode(sorted(params.items()), doseq=True)`. -/
def pyQuotePlus (s : List Char) : List Char :=
  concatMap pyQuotePlusChar s

/-- Worker for `unquote`: scans the string, accumulating the bytes of a
maximal run of `%XX` escapes (in reverse) and decoding each completed run as
UTF-8, while literal characters pass through.  Extensionally this is
CPython's `unquote` (which splits into ASCII runs, byte-decodes each run with
`unquote_to_bytes`, then UTF-8 decodes): ASCII literals inside a run decode
to themselves and never extend a multi-byte sequence, so flushing the byte
accumulator at every literal gives the same result. -/
def pyUnquoteAux : List Char → List Nat → List Char
  | [], acc => utf8DecodeReplace acc.reverse
  | '%' :: c1 :: c2 :: rest, acc =>
    match hexDigitVal c1, hexDigitVal c2 with
    | some h, some l => pyUnquoteAux rest ((h * 16 + l) :: acc)
    | _, _ =>
      utf8DecodeReplace acc.reverse ++ '%' :: pyUnquoteAux (c1 :: c2 :: rest) []
  | c :: cs, acc => utf8DecodeReplace acc.reverse ++ c :: pyUnquoteAux cs []

/-- `unquote(s, encoding='utf-8', errors='replace')`. -/
def pyUnquote (s : List Char) : List Char :=
  pyUnquoteAux s []

def plusToSpace (c : Char) : Char :=
  if c = '+' then ' ' else c

/-- `unquote_plus(s)`, as used by `parse_qsl` (`s.replace('+',' ')` then
`unquote`). -/
def pyUnquotePlus (s : List Char) : List Char :=
  pyUnquote (s.map plusToSpace)

/-! ## Query strings: `parse_qsl`, `parse_qs`, `sorted`, `urlencode` -/

/-- One `name=value` field of `parse_qsl(qs, keep_blank_values=True)`:
empty fields are dropped; a field without `=` becomes `(name, '')` (because
`keep_blank_values` is true); names and values go through
`replace('+',' ')` and `unquote`. -/
def qslField (field : List Char) : Option (List Char × List Char) :=
  if field = [] then none
  else
    match breakAtChar '=' field with
    | some (n, v) => some (pyUnquotePlus n, pyUnquotePlus v)
    | none => some (pyUnquotePlus field, [])

/-- `parse_qsl(qs, keep_blank_values=True)` (separator `'&'`). -/
def pyParseQsl (qs : List Char) : List (List Char × List Char) :=
  if qs = [] then [] else (splitOnChar '&' qs).filterMap qslField

/-- One step of `parse_qs`'s dict building: append the value to an existing
key's list, else add a new `key -> [value]` entry at the end (Python dicts
preserve insertion order). -/
def qsDictAppend (d : List (List Char × List (List Char)))
    (kv : List Char × List Char) : List (List Char × List (List Char)) :=
  if d.any (fun e => e.1 = kv.1) then
    d.map (fun e => if e.1 = kv.1 then (e.1, e.2 ++ [kv.2]) else e)
  else d ++ [(kv.1, [kv.2])]

/-- `parse_qs(qs, keep_blank_values=True)`, as an insertion-ordered
association list. -/
def pyParseQs (qs : List Char) : List (List Char × List (List Char)) :=
  (pyParseQsl qs).foldl qsDictAppend []

/-- Python string `<`: lexicographic comparison by code point. -/
def strLtB : List Char → List Char → Bool
  | [], [] => false
  | [], _ :: _ => true
  | _ :: _, [] => false
  | a :: as, b :: bs =>
    if a.toNat < b.toNat then true
    else if b.toNat < a.toNat then false
    else strLtB as bs

/-- Stable insertion into a sorted list: the new element goes after every
element not strictly greater than it. -/
def insertByLt (lt : α → α → Bool) (x : α) : List α → List α
  | [] => [x]
  | y :: ys => if lt y x then y :: insertByLt lt x ys else x :: y :: ys

/-- Stable sort by a strict comparison: extensionally the unique stable sort,
hence the same function as Python's `sorted(..., key=...)`. -/
def sortByLt (lt : α → α → Bool) : List α → List α
  | [] => []
  | x :: xs => insertByLt lt x (sortByLt lt xs)

/-- `sorted(params.items())`: dict items sorted by key (keys are distinct, so
the tuple comparison never reaches the value lists). -/
def pySortedPairs (d : List (List Char × List (List Char))) :
    List (List Char × List (List Char)) :=
  sortByLt (fun a b => strLtB a.1 b.1) d

/-- `urlencode(pairs, doseq=True)` with `quote_via=quote_plus`:
`'&'.join(quote_plus(k) + '=' + quote_plus(v) for each value v of each k)`. -/
def pyUrlencode (pairs : List (List Char × List (List Char))) : List Char :=
  joinChar '&'
    (concatMap (fun kv => kv.2.map (fun v => pyQuotePlus kv.1 ++ '=' :: pyQuotePlus v)) pairs)

/-- The full query canonicalization of `normalize_url`:
`urlencode(sorted(parse_qs(q, keep_blank_values=True).items()), doseq=True)`. -/
def pyCanonQuery (q : List Char) : List Char :=
  pyUrlencode (pySortedPairs (pyParseQs q))

/-- Flattening of a grouped query dict back into (name, value) pairs, in
order; `parse_qsl` applied to `urlencode(pairs, doseq=True)` recovers
exactly this list. -/
def flattenq (S : List (List Char × List (List Char))) : List (List Char × List Char) :=
  concatMap (fun kv => kv.2.map (fun v => (kv.1, v))) S

/-- An uppercase hexadecimal digit (the output alphabet of `escapeByte`). -/
def isHexUpperDigit (c : Char) : Bool :=
  ('0' ≤ c ∧ c ≤ '9') || ('A' ≤ c ∧ c ≤ 'F')

/-! ## `urlsplit` / `urlparse` / `urlunsplit` / `urlunparse` / `urljoin`
(CPython 3.11 `urllib/parse.py`) -/

structure PySplitUrl where
  scheme : List Char
  netloc : List Char
  path : List Char
  query : List Char
  fragment : List Char
  deriving DecidableEq, Repr

structure PyParsedUrl where
  scheme : List Char
  netloc : List Char
  path : List Char
  params : List Char
  query : List Char
  fragment : List Char
  deriving DecidableEq, Repr

def usesRelative : List (List Char) :=
  ["", "ftp", "http", "gopher", "nntp", "imap", "wais", "file", "https",
   "shttp", "mms", "prospero", "rtsp", "rtspu", "sftp", "svn", "svn+ssh",
   "ws", "wss"].map String.data

def usesNetloc : List (List Char) :=
  ["", "ftp", "http", "gopher", "nntp", "telnet", "imap", "wais", "file",
   "mms", "https", "shttp", "snews", "prospero", "rtsp", "rtspu", "rsync",
   "svn", "svn+ssh", "sftp", "nfs", "git", "git+ssh", "ws", "wss"].map String.data

def usesParams : List (List Char) :=
  ["", "ftp", "hdl", "prospero", "http", "imap", "https", "shttp", "rtsp",
   "rtspu", "sip", "sips", "mms", "sftp", "tel"].map String.data

/-- The scheme-detection step of `urlsplit`: split at the first `':'` when
everything before it is a nonempty run of scheme characters starting with an
ASCII letter; otherwise keep the caller's default scheme. -/
def splitScheme (url ds : List Char) : List Char × List Char :=
  match breakAtChar ':' url with
  | some (before, after) =>
    if before ≠ [] ∧ isAsciiAlpha before.headI ∧ before.all schemeChar then
      (pyLowerStr before, after)
    else (ds, url)
  | none => (ds, url)

/-- The netloc delimiters of `_splitnetloc`. -/
def netlocStop (c : Char) : Bool :=
  c = '/' || c = '?' || c = '#'

/-- `urlsplit(url, scheme=ds, allow_fragments=True)`.  Returns `none` where
CPython raises `ValueError` (mismatched IPv6 brackets); `normalize_url`
catches that exception and returns `None`. -/
def pyUrlsplitL (url ds : List Char) : Option PySplitUrl :=
  let url := cleanUrl url
  let ds := cleanUrl ds
  let (scheme, rest) := splitScheme url ds
  let (netloc, rest) :=
    if rest.take 2 = ['/', '/'] then
      ((rest.drop 2).takeWhile (fun c => !netlocStop c),
       (rest.drop 2).dropWhile (fun c => !netlocStop c))
    else ([], rest)
  if ('[' ∈ netloc ∧ ']' ∉ netloc) ∨ (']' ∈ netloc ∧ '[' ∉ netloc) then none
  else
    let (rest, fragment) :=
      match breakAtChar '#' rest with
      | some (a, b) => (a, b)
      | none => (rest, [])
    let (path, query) :=
      match breakAtChar '?' rest with
      | some (a, b) => (a, b)
      | none => (rest, [])
    some ⟨scheme, netloc, path, query, fragment⟩

/-- `_splitparams(url)`: split the parameters of the last path segment
(`url.find(';', url.rfind('/'))` when the path contains `'/'`). -/
def pySplitparamsL (p : List Char) : List Char × List Char :=
  if '/' ∈ p then
    let lastSeg := (p.reverse.takeWhile (fun c => c ≠ '/')).reverse
    let pre := (p.reverse.dropWhile (fun c => c ≠ '/')).reverse
    match breakAtChar ';' lastSeg with
    | some (a, b) => (pre ++ a, b)
    | none => (p, [])
  else
    match breakAtChar ';' p with
    | some (a, b) => (a, b)
    | none => (p, [])

/-- `urlparse(url, scheme=ds, allow_fragments=True)`. -/
def pyUrlparseL (url ds : List Char) : Option PyParsedUrl :=
  (pyUrlsplitL url ds).map (fun s =>
    if s.scheme ∈ usesParams ∧ ';' ∈ s.path then
      let (p, params) := pySplitparamsL s.path
      ⟨s.scheme, s.netloc, p, params, s.query, s.fragment⟩
    else ⟨s.scheme, s.netloc, s.path, [], s.query, s.fragment⟩)

/-- `urlunsplit(components)` (CPython 3.11: the authority is re-attached when
`netloc` is truthy, or when the scheme uses a netloc and the path does not
already start with `'//'`). -/
def pyUrlunsplitL (s : PySplitUrl) : List Char :=
  let url := s.path
  let url :=
    if s.netloc ≠ [] ∨ (s.scheme ≠ [] ∧ s.scheme ∈ usesNetloc ∧ url.take 2 ≠ ['/', '/']) then
      let url := if url ≠ [] ∧ url.take 1 ≠ ['/'] then '/' :: url else url
      '/' :: '/' :: (s.netloc ++ url)
    else url
  let url := if s.scheme ≠ [] then s.scheme ++ ':' :: url else url
  let url := if s.query ≠ [] then url ++ '?' :: s.query else url
  if s.fragment ≠ [] then url ++ '#' :: s.fragment else url

/-- `urlunparse(components)`. -/
def pyUrlunparseL (p : PyParsedUrl) : List Char :=
  pyUrlunsplitL
    ⟨p.scheme, p.netloc,
     (if p.params ≠ [] then p.path ++ ';' :: p.params else p.path),
     p.query, p.fragment⟩

/-- The netloc-splitting stage of `urlsplit`, as a function of the
post-scheme remainder. -/
def splitNetlocStage (rest : List Char) : List Char × List Char :=
  if rest.take 2 = ['/', '/'] then
    ((rest.drop 2).takeWhile (fun c => !netlocStop c),
     (rest.drop 2).dropWhile (fun c => !netlocStop c))
  else ([], rest)

/-- `urlsplit` re-expressed through projections of its stages (definitionally
equal to `pyUrlsplitL`, see `pyUrlsplitL_eq`). -/
def pyUrlsplitStages (url ds : List Char) : Option PySplitUrl :=
  let sr := splitScheme (cleanUrl url) (cleanUrl ds)
  let nr := splitNetlocStage sr.2
  if ('[' ∈ nr.1 ∧ ']' ∉ nr.1) ∨ (']' ∈ nr.1 ∧ '[' ∉ nr.1) then none
  else
    let rf := (breakAtChar '#' nr.2).getD (nr.2, [])
    let pq := (breakAtChar '?' rf.1).getD (rf.1, [])
    some ⟨sr.1, nr.1, pq.1, pq.2, rf.2⟩

/-- The path-segment resolution loop of `urljoin` (`'..'` pops, `'.'` is
dropped, anything else is appended; popping an empty stack is ignored). -/
def resolveSegments (segments : List (List Char)) : List (List Char) :=
  segments.foldl
    (fun acc seg =>
      if seg = "..".data then acc.dropLast
      else if seg = ".".data then acc
      else acc ++ [seg]) []

/-- `urljoin(base, url, allow_fragments=True)`.  `none` where the internal
`urlparse` calls raise. -/
def pyUrljoinL (base url : List Char) : Option (List Char) :=
  if base = [] then some url
  else if url = [] then some base
  else
    match pyUrlparseL base [] with
    | none => none
    | some b =>
      match pyUrlparseL url b.scheme with
      | none => none
      | some u =>
        if u.scheme ≠ b.scheme ∨ u.scheme ∉ usesRelative then some url
        else
          let netloc := u.netloc
          if u.scheme ∈ usesNetloc ∧ netloc ≠ [] then
            some (pyUrlunparseL ⟨u.scheme, netloc, u.path, u.params, u.query, u.fragment⟩)
          else
            let netloc := if u.scheme ∈ usesNetloc then b.netloc else netloc
            if u.path = [] ∧ u.params = [] then
              let query := if u.query = [] then b.query else u.query
              some (pyUrlunparseL ⟨u.scheme, netloc, b.path, b.params, query, u.fragment⟩)
            else
              let baseParts := splitOnChar '/' b.path
              let baseParts :=
                if baseParts.getLast? ≠ some [] then baseParts.dropLast else baseParts
              let segments :=
                if u.path.take 1 = ['/'] then splitOnChar '/' u.path
                else
                  let segs := baseParts ++ splitOnChar '/' u.path
                  match segs with
                  | [] => []
                  | [x] => [x]
                  | x :: xs =>
                    x :: ((xs.dropLast.filter (fun s => s ≠ [])) ++
                          match xs.getLast? with
                          | some l => [l]
                          | none => [])
              let resolved := resolveSegments segments
              let resolved :=
                if segments.getLast? = some "..".data ∨ segments.getLast? = some ".".data then
                  resolved ++ [[]]
                else resolved
              let rp := joinChar '/' resolved
              let rp := if rp = [] then ['/'] else rp
              some (pyUrlunparseL ⟨u.scheme, netloc, rp, u.params, u.query, u.fragment⟩)

/-! ## `URLManager.normalize_url` (`src/url_manager.py`, lines 66-135) -/

/-- `parsed.scheme.lower()`. -/
def canonScheme (scheme : List Char) : List Char :=
  pyLowerStr scheme

/-- `parsed.netloc.lower()` followed by default-port removal:
`netloc[:-3]` when it ends in `':80'` and the scheme is `http`, `netloc[:-4]`
when it ends in `':443'` and the scheme is `https`. -/
def canonNetloc (scheme netloc : List Char) : List Char :=
  let s := pyLowerStr scheme
  let n := pyLowerStr netloc
  if hasSuffix n ":80".data ∧ s = "http".data then dropLastN 3 n
  else if hasSuffix n ":443".data ∧ s = "https".data then dropLastN 4 n
  else n

/-- The trailing-slash cleanup of `normalize_url`:
`if path != '/' and path.endswith('/'): path = path.rstrip('/')`. -/
def canonPath (p : List Char) : List Char :=
  if p ≠ "/".data ∧ hasSuffix p "/".data then rstripSlashes p else p

/-- The component transformation of `normalize_url` after parsing: reject
non-HTTP(S) schemes, lowercase scheme and netloc, strip default ports,
re-sort and re-encode the query, drop the fragment, clean the path. -/
def normTransform (pu : PyParsedUrl) : Option PyParsedUrl :=
  if pu.scheme ≠ "http".data ∧ pu.scheme ≠ "https".data then none
  else
    some ⟨canonScheme pu.scheme, canonNetloc pu.scheme pu.netloc,
          canonPath pu.path, pu.params,
          (if pu.query ≠ [] then pyCanonQuery pu.query else []), []⟩

/-- `URLManager.normalize_url(url, parent_url)` on lists: resolve against the
parent when the URL is relative, parse, transform, unparse.  `none` is the
`None` result (non-HTTP(S) scheme or an exception caught by the
`try/except`). -/
def normListL (url : List Char) (parent : Option (List Char)) : Option (List Char) :=
  let step1 : Option (List Char) :=
    match parent with
    | some p =>
      if p ≠ [] ∧ ¬(hasPre url "http://".data ∨ hasPre url "https://".data ∨
                     hasPre url "//".data) then
        pyUrljoinL p url
      else some url
    | none => some url
  step1.bind (fun u =>
    (pyUrlparseL u []).bind (fun pu =>
      (normTransform pu).map pyUrlunparseL))

/-- `URLManager.normalize_url` at the `String` interface. -/
def pyNormalizeUrl (url : String) (parent : Option String) : Option String :=
  (normListL url.data (parent.map String.data)).map (fun l => String.mk l)

/-! ## `URLManager` state and operations (`src/url_manager.py`) -/

/-- The `self.stats` dictionary (fixed keys). -/
structure UMStats where
  totalQueued : Nat
  totalVisited : Nat
  totalFailed : Nat
  totalSkipped : Nat
  duplicateCount : Nat
  deriving DecidableEq, Repr

def UMStats.zero : UMStats := ⟨0, 0, 0, 0, 0⟩

/-- A queue element `(priority, depth, url, parent_url)`. -/
structure QEntry where
  priority : Nat
  depth : Nat
  url : String
  parent : Option String
  deriving DecidableEq, Repr

/-- The state of a `URLManager`.  Python sets are modelled as duplicate-free
lists in insertion order, the failed-URL dict as an association list in
insertion order, and the deque as a list (front at the head). -/
structure UMState where
  baseDomain : String
  maxDepth : Nat
  maxPages : Nat
  visitedUrls : List String
  urlHashes : List String
  failedUrls : List (String × String)
  urlQueue : List QEntry
  stats : UMStats
  deriving DecidableEq, Repr

/-- `URLManager._url_hash`: `hashlib.md5(url.encode()).hexdigest()`, modelled
as the identity injection (the dedup logic uses only that the fingerprint is
a deterministic — and, for distinct URLs, collision-free — function of the
string). -/
def urlHashFn (s : String) : String := s

/-- `URLManager._normalize_domain`: parse (prefixing `http://` when no `'://'`
is present) and lowercase the netloc.  The constructor does not catch parse
errors; the fallback `""` models the (unreachable for the inputs used here)
raising case. -/
def pyNormalizeDomain (domain : String) : String :=
  let d := if containsSeq "://".data domain.data then domain.data
           else "http://".data ++ domain.data
  match pyUrlsplitL d [] with
  | some s => String.mk (pyLowerStr s.netloc)
  | none => ""

/-- `URLManager.__init__(base_domain, max_depth, max_pages)`. -/
def umInit (domain : String) (maxDepth maxPages : Nat) : UMState :=
  ⟨pyNormalizeDomain domain, maxDepth, maxPages, [], [], [], [], UMStats.zero⟩

/-- `set.add`: appends iff absent (canonical duplicate-free list form). -/
def setInsert (s : List String) (x : String) : List String :=
  if x ∈ s then s else s ++ [x]

/-- `set(list)`: deduplicate, keeping first occurrences. -/
def pySetOfList (l : List String) : List String :=
  l.foldl setInsert []

/-- `dict[k] = v`: update in place if the key exists, else append. -/
def dictInsertStr (d : List (String × String)) (k v : String) :
    List (String × String) :=
  if d.any (fun e => e.1 = k) then
    d.map (fun e => if e.1 = k then (e.1, v) else e)
  else d ++ [(k, v)]

/-- `URLManager.add_url(url, depth, parent_url, priority)` (lines 238-284).
Returns the Python return value together with the new state. -/
def addUrl (st : UMState) (url : String) (depth : Nat) (parent : Option String)
    (priority : Option Nat) : Bool × UMState :=
  match pyNormalizeUrl url parent with
  | none =>
    (false, { st with stats := { st.stats with totalSkipped := st.stats.totalSkipped + 1 } })
  | some normalizedUrl =>
    let urlHash := urlHashFn normalizedUrl
    if urlHash ∈ st.urlHashes then
      (false, { st with stats := { st.stats with duplicateCount := st.stats.duplicateCount + 1 } })
    else if st.maxDepth < depth then
      (false, { st with stats := { st.stats with totalSkipped := st.stats.totalSkipped + 1 } })
    else if st.maxPages ≤ st.visitedUrls.length then
      (false, { st with stats := { st.stats with totalSkipped := st.stats.totalSkipped + 1 } })
    else
      let priority := priority.getD 3
      (true,
       { st with
         urlQueue := st.urlQueue ++ [⟨priority, depth, normalizedUrl, parent⟩],
         urlHashes := st.urlHashes ++ [urlHash],
         stats := { st.stats with totalQueued := st.stats.totalQueued + 1 } })

/-- The sort key of `get_next_url`: `lambda x: (x[0], x[1])`, i.e. strict
lexicographic (priority, depth). -/
def qKeyLtB (a b : QEntry) : Bool :=
  a.priority < b.priority || (a.priority = b.priority && a.depth < b.depth)

/-- `URLManager.get_next_url` (lines 286-301): stable-sort the queue by
(priority, depth) and pop the front; returns `(depth, url, parent_url)` and
the new state. -/
def getNextUrl (st : UMState) : Option (Nat × String × Option String) × UMState :=
  match sortByLt qKeyLtB st.urlQueue with
  | [] => (none, st)
  | e :: rest => (some (e.depth, e.url, e.parent), { st with urlQueue := rest })

/-- `URLManager.mark_visited(url)` (lines 303-313). -/
def markVisited (st : UMState) (url : String) : UMState :=
  match pyNormalizeUrl url none with
  | some n =>
    { st with
      visitedUrls := setInsert st.visitedUrls n,
      stats := { st.stats with totalVisited := st.stats.totalVisited + 1 } }
  | none => st

/-- `URLManager.mark_failed(url, error)` (lines 315-326). -/
def markFailed (st : UMState) (url err : String) : UMState :=
  match pyNormalizeUrl url none with
  | some n =>
    { st with
      failedUrls := dictInsertStr st.failedUrls n err,
      stats := { st.stats with totalFailed := st.stats.totalFailed + 1 } }
  | none => st

/-- `URLManager.is_visited(url)`. -/
def isVisited (st : UMState) (url : String) : Bool :=
  match pyNormalizeUrl url none with
  | some n => n ∈ st.visitedUrls
  | none => false

/-- `URLManager.queue_size()`. -/
def queueSize (st : UMState) : Nat :=
  st.urlQueue.length

/-- The dictionary produced by `save_state` / consumed by `load_state`.
Known fields are optional (`load_state` reads each with `state.get(key,
default)`); `extra` models unknown fields, which `load_state` never reads. -/
structure PyStateDict where
  base_domain : Option String
  max_depth : Option Nat
  max_pages : Option Nat
  visited_urls : Option (List String)
  url_hashes : Option (List String)
  failed_urls : Option (List (String × String))
  url_queue : Option (List QEntry)
  stats : Option UMStats
  extra : List (String × String)
  deriving DecidableEq, Repr

/-- `URLManager.save_state()` (lines 354-370). -/
def saveState (st : UMState) : PyStateDict :=
  ⟨some st.baseDomain, some st.maxDepth, some st.maxPages,
   some st.visitedUrls, some st.urlHashes, some st.failedUrls,
   some st.urlQueue, some st.stats, []⟩

/-- `URLManager.load_state(state)` (lines 372-388): each known field is read
with `state.get(key, default)`; missing collections default to empty, while
missing scope fields and missing `stats` keep the manager's current values.
Unknown fields are never read. -/
def loadState (st : UMState) (d : PyStateDict) : UMState :=
  { baseDomain := d.base_domain.getD st.baseDomain,
    maxDepth := d.max_depth.getD st.maxDepth,
    maxPages := d.max_pages.getD st.maxPages,
    visitedUrls := pySetOfList (d.visited_urls.getD []),
    urlHashes := pySetOfList (d.url_hashes.getD []),
    failedUrls := d.failed_urls.getD [],
    urlQueue := d.url_queue.getD [],
    stats := d.stats.getD st.stats }

/-! ## The orchestrator loop (`NGOScraper.scrape_ngo`, `src/scraper.py`
lines 473-527), abstracted over the external collaborators

The fetcher, robots oracle, extractor, exclusion filter and priority rules
are abstracted into an oracle mapping each URL to an outcome; only the
effects on the `URLManager` state are modelled. -/

/-- Outcome of `_fetch_url` plus content classification, as it affects the
frontier: `failure` is a `None` result (robots-blocked, or an error that may
first record `mark_failed`); `htmlPage` carries the internal links that
survive the exclusion filter (with their pattern-derived priorities) and the
document links; `nonHtml` is a successful fetch of a document or other
content. -/
inductive FetchOutcome where
  | failure (err : Option String)
  | htmlPage (links : List (String × Nat)) (docs : List String)
  | nonHtml
  deriving Repr

/-- One iteration of the main loop: pop the next URL (halting when the queue
is empty), halt when the visited budget is reached, skip already-visited
URLs, otherwise fetch; on success mark visited and, for HTML, enqueue the
extracted links at `depth+1` and document links at the same depth with
priority 0; on failure record and mark visited.  `none` means the loop
terminated. -/
def crawlStep (oracle : String → FetchOutcome) (st : UMState) : Option UMState :=
  match getNextUrl st with
  | (none, _) => none
  | (some (depth, url, _), st1) =>
    if st1.maxPages ≤ st1.visitedUrls.length then none
    else if isVisited st1 url then some st1
    else
      match oracle url with
      | .failure err =>
        let st2 := match err with
          | some e => markFailed st1 url e
          | none => st1
        some (markVisited st2 url)
      | .htmlPage links docs =>
        let st2 := markVisited st1 url
        let st3 := links.foldl
          (fun s l => (addUrl s l.1 (depth + 1) (some url) (some l.2)).2) st2
        some (docs.foldl
          (fun s d => (addUrl s d depth (some url) (some 0)).2) st3)
      | .nonHtml => some (markVisited st1 url)

/-- Run the loop for at most `fuel` iterations. -/
def crawlRun (oracle : String → FetchOutcome) : Nat → UMState → UMState
  | 0, st => st
  | n + 1, st =>
    match crawlStep oracle st with
    | none => st
    | some st' => crawlRun oracle n st'

/-- The scope invariant of the frontier. -/
def frontierInv (st : UMState) : Prop :=
  st.visitedUrls.length ≤ st.maxPages ∧ ∀ e ∈ st.urlQueue, e.depth ≤ st.maxDepth

/-! ## Checkpoint writing (`NGOScraper._save_checkpoint`, `src/scraper.py`
lines 378-396), as a trace of file-system operations -/

/-- File-system operations relevant to checkpointing. -/
inductive FsOp where
  | mkdirp (dir : String)
  | truncate (path : String)
  | writeAll (path : String) (content : String)
  | rename (src dst : String)
  deriving DecidableEq, Repr

/-- A file system: path to content. -/
abbrev FS := List (String × String)

def fsRead (fs : FS) (path : String) : Option String :=
  (fs.find? (fun e => e.1 = path)).map (fun e => e.2)

def fsWrite (fs : FS) (path content : String) : FS :=
  if fs.any (fun e => e.1 = path) then
    fs.map (fun e => if e.1 = path then (e.1, content) else e)
  else fs ++ [(path, content)]

def applyFsOp (fs : FS) : FsOp → FS
  | .mkdirp _ => fs
  | .truncate p => fsWrite fs p ""
  | .writeAll p c => fsWrite fs p c
  | .rename src dst =>
    match fsRead fs src with
    | some c => fsWrite (fs.filter (fun e => e.1 ≠ src)) dst c
    | none => fs

def applyFsOps (fs : FS) (ops : List FsOp) : FS :=
  ops.foldl applyFsOp fs

/-- The operations performed by `_save_checkpoint`: ensure the directory,
then `open(self.progress_file, 'w')` — which truncates the checkpoint in
place — then `json.dump` the data.  There is no temporary file and no
rename. -/
def saveCheckpointOps (path content : String) : List FsOp :=
  [.mkdirp "parent", .truncate path, .writeAll path content]

/-- Whether an operation is a rename (used to state that `_save_checkpoint`
never renames). -/
def FsOp.renames : FsOp → Bool
  | .rename _ _ => true
  | _ => false

/-! ## A concrete enqueue scenario with priorities [2, 0, 1, 0] -/

def c4Step0 : UMState := umInit "example.com" 3 500
def c4Step1 : UMState := (addUrl c4Step0 "http://example.com/p2" 0 none (some 2)).2
def c4Step2 : UMState := (addUrl c4Step1 "http://example.com/p0a" 0 none (some 0)).2
def c4Step3 : UMState := (addUrl c4Step2 "http://example.com/p1" 0 none (some 1)).2
def c4Step4 : UMState := (addUrl c4Step3 "http://example.com/p0b" 0 none (some 0)).2
def c4Pop1 : Option (Nat × String × Option String) × UMState := getNextUrl c4Step4
def c4Pop2 : Option (Nat × String × Option String) × UMState := getNextUrl c4Pop1.2
def c4Pop3 : Option (Nat × String × Option String) × UMState := getNextUrl c4Pop2.2
def c4Pop4 : Option (Nat × String × Option String) × UMState := getNextUrl c4Pop3.2

/-! ## General lemmas about the list utilities -/

theorem breakAtChar_of_not_mem {sep : Char} {l : List Char} (h : sep ∉ l) :
    breakAtChar sep l = none := by
  induction l with
  | nil => rfl
  | cons c cs ih =>
    simp only [List.mem_cons, not_or] at h
    simp [breakAtChar, Ne.symm h.1, ih h.2]

theorem breakAtChar_append {sep : Char} {a : List Char} (b : List Char)
    (h : sep ∉ a) : breakAtChar sep (a ++ sep :: b) = some (a, b) := by
  induction a with
  | nil => simp [breakAtChar]
  | cons c cs ih =>
    simp only [List.mem_cons, not_or] at h
    simp [breakAtChar, Ne.symm h.1, ih h.2]

theorem breakAtChar_eq_some {sep : Char} {l a b : List Char}
    (h : breakAtChar sep l = some (a, b)) : l = a ++ sep :: b ∧ sep ∉ a := by
  induction l generalizing a b with
  | nil => simp [breakAtChar] at h
  | cons c cs ih =>
    by_cases hc : c = sep
    · subst hc
      have h' : ([] : List Char) = a ∧ cs = b := by
        simpa [breakAtChar] using h
      obtain ⟨ha, hb⟩ := h'
      subst hb
      simp [← ha]
    · simp only [breakAtChar, if_neg hc, Option.map_eq_some'] at h
      obtain ⟨⟨a', b'⟩, hp, heq⟩ := h
      obtain ⟨h1, h2⟩ := ih hp
      have ha : a = c :: a' := by
        have := congrArg Prod.fst heq
        simpa using this.symm
      have hb : b = b' := by
        have := congrArg Prod.snd heq
        simpa using this.symm
      subst ha; subst hb
      refine ⟨by rw [h1]; simp, ?_⟩
      simp only [List.mem_cons, not_or]
      exact ⟨fun hh => hc hh.symm, h2⟩

theorem takeWhile_append_eq {p : Char → Bool} {a : List Char} (b : List Char)
    (ha : ∀ c ∈ a, p c = true) (hb : b = [] ∨ ∃ c t, b = c :: t ∧ p c = false) :
    (a ++ b).takeWhile p = a ∧ (a ++ b).dropWhile p = b := by
  induction a with
  | nil =>
    rcases hb with h | ⟨c, t, hct, hc⟩
    · subst h; simp
    · subst hct; simp [List.takeWhile, List.dropWhile, hc]
  | cons x xs ih =>
    have hx : p x = true := ha x (by simp)
    have := ih (fun c hc => ha c (by simp [hc]))
    simp [List.takeWhile, List.dropWhile, hx, this.1, this.2]

theorem mem_takeWhile {p : Char → Bool} {l : List Char} {c : Char}
    (h : c ∈ l.takeWhile p) : c ∈ l := by
  induction l with
  | nil => simp at h
  | cons x xs ih =>
    by_cases hx : p x
    · simp [List.takeWhile, hx] at h
      rcases h with h | h
      · simp [h]
      · exact List.mem_cons_of_mem _ (ih h)
    · simp [List.takeWhile, hx] at h

theorem takeWhile_all {p : Char → Bool} {l : List Char} :
    ∀ c ∈ l.takeWhile p, p c = true := by
  induction l with
  | nil => simp
  | cons x xs ih =>
    by_cases hx : p x
    · simp only [List.takeWhile, hx]
      intro c hc
      rcases List.mem_cons.mp hc with h | h
      · subst h; exact hx
      · exact ih c h
    · simp [List.takeWhile, hx]

theorem dropWhile_head {p : Char → Bool} (l : List Char) :
    l.dropWhile p = [] ∨ ∃ c t, l.dropWhile p = c :: t ∧ p c = false := by
  induction l with
  | nil => simp
  | cons x xs ih =>
    by_cases hx : p x
    · simpa [List.dropWhile, hx] using ih
    · right
      exact ⟨x, xs, by simp [List.dropWhile, hx], by simpa using hx⟩

theorem mem_dropWhile {p : Char → Bool} {l : List Char} {c : Char}
    (h : c ∈ l.dropWhile p) : c ∈ l := by
  induction l with
  | nil => simp at h
  | cons x xs ih =>
    by_cases hx : p x
    · simp only [List.dropWhile, hx] at h
      exact List.mem_cons_of_mem _ (ih h)
    · simpa [List.dropWhile, hx] using h

/-- `rstripSlashes` decomposition: the input is the output followed by a run
of trailing slashes. -/
theorem rstripSlashes_decomp (l : List Char) :
    ∃ n, l = rstripSlashes l ++ List.replicate n '/' := by
  refine ⟨(l.reverse.takeWhile (fun c => decide (c = '/'))).length, ?_⟩
  have hsplit := List.takeWhile_append_dropWhile (fun c => decide (c = '/')) l.reverse
  have hrep : l.reverse.takeWhile (fun c => decide (c = '/')) =
      List.replicate (l.reverse.takeWhile (fun c => decide (c = '/'))).length '/' := by
    apply List.eq_replicate_of_mem
    intro b hb
    simpa using takeWhile_all b hb
  have hl : l = (l.reverse.takeWhile (fun c => decide (c = '/')) ++
      l.reverse.dropWhile (fun c => decide (c = '/'))).reverse := by
    rw [hsplit, List.reverse_reverse]
  rw [List.reverse_append] at hl
  conv_lhs => rw [hl]
  unfold rstripSlashes
  congr 1
  rw [hrep, List.reverse_replicate]
  simp

/-- The output of `rstripSlashes` never ends in `'/'`. -/
theorem rstripSlashes_not_slash_end (l : List Char) :
    hasSuffix (rstripSlashes l) ['/'] = false := by
  have h := dropWhile_head (p := fun c => c = '/') l.reverse
  rcases h with h | ⟨c, t, hct, hc⟩
  · simp [hasSuffix, rstripSlashes, h]
  · simp only [hasSuffix, rstripSlashes, hct]
    simp only [List.reverse_reverse]
    have hcne : c ≠ '/' := by simpa using hc
    simp [List.take, hcne]

/-! ## Lemmas about sets, dicts and the stable sort -/

theorem setInsert_of_mem {s : List String} {x : String} (h : x ∈ s) :
    setInsert s x = s := by
  simp [setInsert, h]

theorem mem_setInsert_self (s : List String) (x : String) : x ∈ setInsert s x := by
  by_cases h : x ∈ s <;> simp [setInsert, h]

theorem setInsert_length_le (s : List String) (x : String) :
    (setInsert s x).length ≤ s.length + 1 := by
  by_cases h : x ∈ s <;> simp [setInsert, h]

theorem pySetOfList_aux {l acc : List String} (hd : l.Nodup)
    (hdisj : ∀ x ∈ l, x ∉ acc) : l.foldl setInsert acc = acc ++ l := by
  induction l generalizing acc with
  | nil => simp
  | cons x xs ih =>
    have hx : x ∉ acc := hdisj x (by simp)
    have hstep : setInsert acc x = acc ++ [x] := by simp [setInsert, hx]
    have hxs : xs.Nodup := (List.nodup_cons.mp hd).2
    have hxl : x ∉ xs := (List.nodup_cons.mp hd).1
    simp only [List.foldl_cons, hstep]
    rw [ih hxs]
    · simp
    · intro y hy
      simp only [List.mem_append, List.mem_singleton, not_or]
      exact ⟨hdisj y (by simp [hy]), fun hyx => hxl (hyx ▸ hy)⟩

theorem pySetOfList_of_nodup {l : List String} (h : l.Nodup) :
    pySetOfList l = l := by
  simpa [pySetOfList] using pySetOfList_aux h (by simp)

theorem insertByLt_mem {lt : α → α → Bool} {x e : α} {l : List α}
    (h : e ∈ insertByLt lt x l) : e = x ∨ e ∈ l := by
  induction l with
  | nil => simpa [insertByLt] using h
  | cons y ys ih =>
    by_cases hy : lt y x
    · simp only [insertByLt, if_pos hy, List.mem_cons] at h
      rcases h with h | h
      · right; simp [h]
      · rcases ih h with h | h
        · left; exact h
        · right; simp [h]
    · rw [insertByLt, if_neg hy] at h
      exact List.mem_cons.mp h

theorem sortByLt_mem {lt : α → α → Bool} {e : α} {l : List α}
    (h : e ∈ sortByLt lt l) : e ∈ l := by
  induction l with
  | nil => simp [sortByLt] at h
  | cons x xs ih =>
    rcases insertByLt_mem h with h | h
    · simp [h]
    · exact List.mem_cons_of_mem _ (ih h)

theorem insertByLt_length {lt : α → α → Bool} (x : α) (l : List α) :
    (insertByLt lt x l).length = l.length + 1 := by
  induction l with
  | nil => rfl
  | cons y ys ih =>
    by_cases hy : lt y x <;> simp [insertByLt, hy, ih]

theorem sortByLt_length {lt : α → α → Bool} (l : List α) :
    (sortByLt lt l).length = l.length := by
  induction l with
  | nil => rfl
  | cons x xs ih => simp [sortByLt, insertByLt_length, ih]

/-- The head of the stable sort is the earliest-inserted minimum: the input
splits as `a ++ e :: b` where every element before `e` is strictly greater
and no element after `e` is strictly smaller. -/
theorem sortByLt_head {lt : α → α → Bool}
    (htrans : ∀ a b c, lt a b = true → lt b c = true → lt a c = true)
    (hneg : ∀ a b c, lt a b = false → lt b c = false → lt a c = false)
    {l : List α} {e : α} {r : List α} (h : sortByLt lt l = e :: r) :
    ∃ a b, l = a ++ e :: b ∧ (∀ f ∈ a, lt e f = true) ∧ (∀ f ∈ b, lt f e = false) := by
  induction l generalizing e r with
  | nil => simp [sortByLt] at h
  | cons x xs ih =>
    rw [sortByLt] at h
    cases hxs : sortByLt lt xs with
    | nil =>
      have hx : xs = [] := by
        have := @sortByLt_length _ lt xs
        rw [hxs] at this
        exact List.eq_nil_of_length_eq_zero this.symm
      rw [hxs] at h
      simp only [insertByLt] at h
      injection h with he hr
      refine ⟨[], [], ?_, by simp, by simp⟩
      simp [hx, ← he]
    | cons e' r' =>
      rw [hxs] at h
      obtain ⟨a', b', hsplit, ha', hb'⟩ := ih hxs
      by_cases hcase : lt e' x
      · simp only [insertByLt, if_pos hcase] at h
        injection h with he hr
        refine ⟨x :: a', b', by rw [← he, hsplit]; simp, ?_, ?_⟩
        · intro f hf
          rcases List.mem_cons.mp hf with hf | hf
          · rw [hf, ← he]; exact hcase
          · rw [← he]; exact ha' f hf
        · intro f hf
          rw [← he]; exact hb' f hf
      · simp only [insertByLt, if_neg hcase] at h
        injection h with he hr
        have hcase' : lt e' x = false := by
          simpa using hcase
        refine ⟨[], xs, by simp [← he], by simp, ?_⟩
        intro f hf
        rw [hsplit] at hf
        rw [← he]
        rcases List.mem_append.mp hf with hf | hf
        · cases hfx : lt f x with
          | false => rfl
          | true =>
            have : lt e' x = true := htrans e' f x (ha' f hf) hfx
            rw [this] at hcase'
            cases hcase'
        · rcases List.mem_cons.mp hf with hf | hf
          · rw [hf]; exact hcase'
          · exact hneg f e' x (hb' f hf) hcase'

/-- Sortedness predicate produced by the stable sort: no later element is
strictly smaller than an earlier one. -/
def SortedB (lt : α → α → Bool) (l : List α) : Prop :=
  l.Pairwise (fun a b => lt b a = false)

theorem insertByLt_front {lt : α → α → Bool} {x : α} {l : List α}
    (h : ∀ y ∈ l, lt y x = false) : insertByLt lt x l = x :: l := by
  cases l with
  | nil => rfl
  | cons y ys =>
    have : lt y x = false := h y (by simp)
    simp [insertByLt, this]

theorem insertByLt_sorted {lt : α → α → Bool}
    (hasym : ∀ a b, lt a b = true → lt b a = false)
    (hneg : ∀ a b c, lt a b = false → lt b c = false → lt a c = false)
    {x : α} {l : List α} (h : SortedB lt l) : SortedB lt (insertByLt lt x l) := by
  induction l with
  | nil => simp [insertByLt, SortedB]
  | cons y ys ih =>
    have hys : SortedB lt ys := (List.pairwise_cons.mp h).2
    have hy : ∀ z ∈ ys, lt z y = false := (List.pairwise_cons.mp h).1
    by_cases hcase : lt y x
    · rw [insertByLt, if_pos hcase]
      refine List.pairwise_cons.mpr ⟨?_, ih hys⟩
      intro z hz
      rcases insertByLt_mem hz with hz | hz
      · rw [hz]; exact hasym y x hcase
      · exact hy z hz
    · rw [insertByLt, if_neg hcase]
      have hcase' : lt y x = false := by simpa using hcase
      refine List.pairwise_cons.mpr ⟨?_, h⟩
      intro z hz
      rcases List.mem_cons.mp hz with hz | hz
      · rw [hz]; exact hcase'
      · exact hneg z y x (hy z hz) hcase'

theorem sortByLt_sorted {lt : α → α → Bool}
    (hasym : ∀ a b, lt a b = true → lt b a = false)
    (hneg : ∀ a b c, lt a b = false → lt b c = false → lt a c = false)
    (l : List α) : SortedB lt (sortByLt lt l) := by
  induction l with
  | nil => simp [sortByLt, SortedB]
  | cons x xs ih => exact insertByLt_sorted hasym hneg ih

theorem sortByLt_of_sorted {lt : α → α → Bool} {l : List α}
    (h : SortedB lt l) : sortByLt lt l = l := by
  induction l with
  | nil => rfl
  | cons x xs ih =>
    have hx : ∀ y ∈ xs, lt y x = false := (List.pairwise_cons.mp h).1
    rw [sortByLt, ih (List.pairwise_cons.mp h).2, insertByLt_front hx]

theorem insertByLt_perm {lt : α → α → Bool} (x : α) (l : List α) :
    (insertByLt lt x l).Perm (x :: l) := by
  induction l with
  | nil => simp [insertByLt]
  | cons y ys ih =>
    by_cases hy : lt y x
    · rw [insertByLt, if_pos hy]
      exact (ih.cons y).trans (List.Perm.swap x y ys)
    · rw [insertByLt, if_neg hy]

theorem sortByLt_perm {lt : α → α → Bool} (l : List α) :
    (sortByLt lt l).Perm l := by
  induction l with
  | nil => simp [sortByLt]
  | cons x xs ih =>
    exact (insertByLt_perm x (sortByLt lt xs)).trans (ih.cons x)

theorem qKeyLtB_trans (a b c : QEntry) (h1 : qKeyLtB a b = true)
    (h2 : qKeyLtB b c = true) : qKeyLtB a c = true := by
  simp only [qKeyLtB, Bool.or_eq_true, Bool.and_eq_true, decide_eq_true_eq] at *
  omega

theorem qKeyLtB_neg (a b c : QEntry) (h1 : qKeyLtB a b = false)
    (h2 : qKeyLtB b c = false) : qKeyLtB a c = false := by
  simp only [qKeyLtB, Bool.or_eq_false_iff, Bool.and_eq_false_iff,
    decide_eq_false_iff_not] at *
  omega

theorem fsRead_fsWrite_self (fs : FS) (p c : String) :
    fsRead (fsWrite fs p c) p = some c := by
  rw [fsWrite]
  split
  case isTrue h =>
    induction fs with
    | nil => simp at h
    | cons e rest ih =>
      by_cases he : e.1 = p
      · simp [fsRead, he, List.find?_cons_of_pos]
      · have hr : rest.any (fun x => x.1 = p) = true := by
          simpa [List.any_cons, he] using h
        have := ih hr
        simp only [List.map_cons, if_neg he, fsRead] at this ⊢
        rwa [List.find?_cons_of_neg]
        simpa using he
  case isFalse h =>
    simp only [List.any_eq_true, decide_eq_true_eq, not_exists, not_and] at h
    have hnone : fs.find? (fun e => e.1 = p) = none := by
      apply List.find?_eq_none.mpr
      intro x hx
      simpa using h x hx
    simp [fsRead, List.find?_append, hnone, List.find?_cons_of_pos]

/-! ## Claim C7: checkpoint writing is not atomic (corrected)

`NGOScraper._save_checkpoint` opens the live checkpoint path with mode
`'w'` — truncating it in place — and then writes the JSON dump; there is no
temporary path and no rename.  A failure between the truncating open and the
completed write leaves an empty file: neither the prior snapshot nor the new
one. -/

/-- C7 counterexample: with a prior snapshot `"OLD"` on disk, stopping the
operation trace of `_save_checkpoint` right after the truncating `open`
leaves the checkpoint file empty — neither the old nor the new snapshot
is readable — falsifying the claimed all-or-nothing behaviour.  Moreover the
trace contains no rename at all. -/
theorem saveCheckpoint_not_atomic_counterexample :
    fsRead (applyFsOps [("ckpt.json", "OLD")]
        ((saveCheckpointOps "ckpt.json" "NEW").take 2)) "ckpt.json" = some "" ∧
    some "" ≠ some "OLD" ∧ some "" ≠ some "NEW" ∧
    ∀ op ∈ saveCheckpointOps "ckpt.json" "NEW", op.renames = false := by
  refine ⟨by decide, by decide, by decide, by decide⟩

/-- C7 amended: `_save_checkpoint` writes directly to the checkpoint path.
A run of the full operation trace leaves the new snapshot readable, but the
intermediate state right after the truncating `open` holds an empty file,
regardless of the prior contents; the trace never renames. -/
theorem saveCheckpoint_truncate_in_place (fs : FS) (p c : String) :
    fsRead (applyFsOps fs (saveCheckpointOps p c)) p = some c ∧
    fsRead (applyFsOps fs ((saveCheckpointOps p c).take 2)) p = some "" ∧
    ∀ op ∈ saveCheckpointOps p c, op.renames = false := by
  refine ⟨?_, ?_, ?_⟩
  · simp only [saveCheckpointOps, applyFsOps, List.foldl_cons, List.foldl_nil, applyFsOp]
    exact fsRead_fsWrite_self _ p c
  · simp only [saveCheckpointOps, List.take, applyFsOps, List.foldl_cons,
      List.foldl_nil, applyFsOp]
    exact fsRead_fsWrite_self fs p ""
  · intro op hop
    simp only [saveCheckpointOps, List.mem_cons, List.not_mem_nil, or_false] at hop
    rcases hop with h | h | h <;> simp [h, FsOp.renames]

/-! ## Claim C6: defaults on loading a checkpoint snapshot (corrected)

`load_state` ignores unknown fields and defaults missing collections to
empty, but a missing `stats` field keeps the manager's *current* counters
(`state.get('stats', self.stats)`), not zeroed ones; likewise the scope
fields keep their current values. -/

/-- C6 counterexample: loading a snapshot with every field missing into a
manager whose counters are nonzero keeps the nonzero counters, falsifying
"missing statistics take zeroed defaults". -/
theorem loadState_missing_stats_counterexample :
    (loadState
        { umInit "e.com" 3 10 with stats := ⟨5, 4, 3, 2, 1⟩ }
        ⟨none, none, none, none, none, none, none, none, [("surprise", "1")]⟩).stats =
      ⟨5, 4, 3, 2, 1⟩ ∧ (⟨5, 4, 3, 2, 1⟩ : UMStats) ≠ UMStats.zero := by
  exact ⟨rfl, by decide⟩

/-- C6 amended: on load, unknown snapshot fields are ignored; missing
collection fields (visited set, dedup index, failed map, pending queue)
default to empty; missing scope fields and missing statistics keep the
loading manager's current values (not zeroed ones). -/
theorem loadState_defaults (st : UMState) (extra : List (String × String)) :
    loadState st ⟨none, none, none, none, none, none, none, none, extra⟩ =
      { st with visitedUrls := [], urlHashes := [], failedUrls := [], urlQueue := [] } ∧
    ∀ d : PyStateDict, ∀ e₁ e₂ : List (String × String),
      loadState st { d with extra := e₁ } = loadState st { d with extra := e₂ } := by
  exact ⟨rfl, fun d e₁ e₂ => rfl⟩

/-! ## Claim C8: `mark_visited` idempotence (corrected)

`mark_visited` is idempotent on the visited set, but each successful call
increments the `total_visited` counter, so the frontier state after two
calls differs from the state after one. -/

/-- C8 counterexample: marking the same URL visited twice from a fresh
manager yields a different state than marking it once (the `total_visited`
counter is 2 instead of 1). -/
theorem markVisited_not_idempotent_counterexample :
    markVisited (markVisited (umInit "a.com" 3 500) "http://a.com") "http://a.com" ≠
      markVisited (umInit "a.com" 3 500) "http://a.com" := by
  decide

/-- C8 amended: a second `mark_visited` call for the same URL leaves the
visited set — and every other component of the state — unchanged except for
the `total_visited` counter, which it increments again; for a URL that fails
to canonicalize, `mark_visited` is the identity. -/
theorem markVisited_second_call (st : UMState) (u : String) :
    (pyNormalizeUrl u none = none → markVisited st u = st) ∧
    (∀ n, pyNormalizeUrl u none = some n →
      markVisited (markVisited st u) u =
        { markVisited st u with stats := { (markVisited st u).stats with
            totalVisited := (markVisited st u).stats.totalVisited + 1 } } ∧
      (markVisited (markVisited st u) u).visitedUrls = (markVisited st u).visitedUrls) := by
  constructor
  · intro h
    simp [markVisited, h]
  · intro n h
    have h1 : markVisited st u =
        { st with
          visitedUrls := setInsert st.visitedUrls n,
          stats := { st.stats with totalVisited := st.stats.totalVisited + 1 } } := by
      simp [markVisited, h]
    have h2 : markVisited (markVisited st u) u =
        { markVisited st u with
          visitedUrls := setInsert (markVisited st u).visitedUrls n,
          stats := { (markVisited st u).stats with
            totalVisited := (markVisited st u).stats.totalVisited + 1 } } := by
      simp [markVisited, h]
    have hmem : n ∈ (markVisited st u).visitedUrls := by
      rw [h1]
      exact mem_setInsert_self _ _
    have hset : setInsert (markVisited st u).visitedUrls n =
        (markVisited st u).visitedUrls := setInsert_of_mem hmem
    rw [h2, hset]
    exact ⟨rfl, rfl⟩

/-- C8 witness: the amended statement at a concrete state and URL. -/
theorem markVisited_second_call_witness :
    markVisited (markVisited (umInit "a.com" 3 500) "http://a.com") "http://a.com" =
      { markVisited (umInit "a.com" 3 500) "http://a.com" with
        stats := { (markVisited (umInit "a.com" 3 500) "http://a.com").stats with
          totalVisited :=
            (markVisited (umInit "a.com" 3 500) "http://a.com").stats.totalVisited + 1 } } := by
  exact ((markVisited_second_call (umInit "a.com" 3 500) "http://a.com").2
    "http://a.com" (by decide)).1

/-! ## Claim C5: checkpoint round trip restores the state (confirmed)

`save_state` emits every component and `load_state` reads them all back;
the only transformation on the way is `set(list(...))` on the visited set
and dedup index, which is the identity on (duplicate-free) sets. -/

/-- C5: for every manager state whose set components are duplicate-free (as
every reachable state's are, since `set.add` never duplicates), loading the
snapshot produced by `save_state` restores the state exactly: same scope
limits, visited set, dedup index, failed map, pending queue and
statistics. -/
theorem loadState_saveState (st : UMState) (hv : st.visitedUrls.Nodup)
    (hh : st.urlHashes.Nodup) : loadState st (saveState st) = st := by
  simp [loadState, saveState, pySetOfList_of_nodup hv, pySetOfList_of_nodup hh]

/-- C5 witness: the round trip at a concrete state with a nonempty queue,
nonempty visited set and a nonempty failed map. -/
theorem loadState_saveState_witness :
    loadState
      ⟨"e.com", 2, 10, ["http://e.com/a"], ["http://e.com/a", "http://e.com/c"],
       [("http://e.com/b", "HTTP 404")], [⟨0, 1, "http://e.com/c", some "http://e.com"⟩],
       ⟨3, 1, 1, 0, 0⟩⟩
      (saveState
        ⟨"e.com", 2, 10, ["http://e.com/a"], ["http://e.com/a", "http://e.com/c"],
         [("http://e.com/b", "HTTP 404")], [⟨0, 1, "http://e.com/c", some "http://e.com"⟩],
         ⟨3, 1, 1, 0, 0⟩⟩) =
      ⟨"e.com", 2, 10, ["http://e.com/a"], ["http://e.com/a", "http://e.com/c"],
       [("http://e.com/b", "HTTP 404")], [⟨0, 1, "http://e.com/c", some "http://e.com"⟩],
       ⟨3, 1, 1, 0, 0⟩⟩ :=
  loadState_saveState _ (by decide) (by decide)

/-! ## Claim C1: enqueue deduplication (confirmed)

Two textual forms that canonicalize to the same URL share the same
fingerprint, so after a first accepted `add_url` the second call hits the
dedup index: it returns `False`, bumps only the duplicate counter, and the
pending queue keeps exactly one entry for that canonical URL. -/

/-- C1: if two raw URLs canonicalize to the same canonical URL `n`, the
first `add_url` was accepted, and the queue held no entry for `n` before,
then the second `add_url` returns `False` and changes nothing but the
duplicate counter, and the pending queue holds exactly one entry for `n`
(and is left unchanged by the second call). -/
theorem addUrl_dedup (st st1 : UMState) (u1 u2 n : String) (p1 p2 : Option String)
    (d1 d2 : Nat) (pr1 pr2 : Option Nat)
    (h1 : pyNormalizeUrl u1 p1 = some n) (h2 : pyNormalizeUrl u2 p2 = some n)
    (hq : st.urlQueue.countP (fun e => e.url = n) = 0)
    (hadd : addUrl st u1 d1 p1 pr1 = (true, st1)) :
    addUrl st1 u2 d2 p2 pr2 =
      (false, { st1 with stats := { st1.stats with
          duplicateCount := st1.stats.duplicateCount + 1 } }) ∧
    st1.urlQueue.countP (fun e => e.url = n) = 1 ∧
    (addUrl st1 u2 d2 p2 pr2).2.urlQueue = st1.urlQueue := by
  simp only [addUrl, h1, urlHashFn] at hadd
  split_ifs at hadd with hdup hdep hbud
  · simp at hadd
  · simp at hadd
  · simp at hadd
  · obtain ⟨-, hst1⟩ := Prod.mk.injEq .. ▸ hadd
    have hhash : n ∈ st1.urlHashes := by
      rw [← hst1]; simp
    have hres : addUrl st1 u2 d2 p2 pr2 =
        (false, { st1 with stats := { st1.stats with
            duplicateCount := st1.stats.duplicateCount + 1 } }) := by
      simp only [addUrl, h2, urlHashFn, if_pos hhash]
    refine ⟨hres, ?_, by rw [hres]⟩
    rw [← hst1]
    simp only [List.countP_append, hq]
    simp [List.countP_cons]

/-- C1 witness: the spec's canonical pair — `http://Example.com:80/a?b=1&a=2`
and `http://example.com/a?a=2&b=1` — enqueued from a fresh manager. -/
theorem addUrl_dedup_witness :
    addUrl (addUrl (umInit "example.com" 3 500)
        "http://Example.com:80/a?b=1&a=2" 0 none (some 0)).2
        "http://example.com/a?a=2&b=1" 0 none (some 1) =
      (false,
       { (addUrl (umInit "example.com" 3 500)
            "http://Example.com:80/a?b=1&a=2" 0 none (some 0)).2 with
         stats := { (addUrl (umInit "example.com" 3 500)
            "http://Example.com:80/a?b=1&a=2" 0 none (some 0)).2.stats with
           duplicateCount := (addUrl (umInit "example.com" 3 500)
            "http://Example.com:80/a?b=1&a=2" 0 none (some 0)).2.stats.duplicateCount + 1 } }) ∧
    (addUrl (umInit "example.com" 3 500)
        "http://Example.com:80/a?b=1&a=2" 0 none (some 0)).2.urlQueue.countP
      (fun e => e.url = "http://example.com/a?a=2&b=1") = 1 ∧
    (addUrl (addUrl (umInit "example.com" 3 500)
        "http://Example.com:80/a?b=1&a=2" 0 none (some 0)).2
        "http://example.com/a?a=2&b=1" 0 none (some 1)).2.urlQueue =
      (addUrl (umInit "example.com" 3 500)
        "http://Example.com:80/a?b=1&a=2" 0 none (some 0)).2.urlQueue := by
  exact addUrl_dedup (umInit "example.com" 3 500)
    (addUrl (umInit "example.com" 3 500) "http://Example.com:80/a?b=1&a=2" 0 none (some 0)).2
    "http://Example.com:80/a?b=1&a=2" "http://example.com/a?a=2&b=1"
    "http://example.com/a?a=2&b=1" none none 0 0 (some 0) (some 1)
    (by decide) (by decide) (by decide) (by decide)

/-! ## Claim C10: skipped enqueues only touch a counter (confirmed)

Every skip path of `add_url` (invalid, duplicate, depth, budget) returns
`False` and leaves the queue, dedup index, visited set and failed map
untouched, changing exactly one statistics counter; in particular a
depth-skip records nothing in the dedup index, so the same URL can later be
accepted at an admissible depth. -/

/-- C10: frame conditions of the four skip paths of `add_url`, plus
re-acceptance after a depth skip. -/
theorem addUrl_skip_frame (st : UMState) (u : String) (d : Nat)
    (p : Option String) (pr : Option Nat) :
    (pyNormalizeUrl u p = none →
      addUrl st u d p pr = (false, { st with stats := { st.stats with
        totalSkipped := st.stats.totalSkipped + 1 } })) ∧
    (∀ n, pyNormalizeUrl u p = some n → urlHashFn n ∈ st.urlHashes →
      addUrl st u d p pr = (false, { st with stats := { st.stats with
        duplicateCount := st.stats.duplicateCount + 1 } })) ∧
    (∀ n, pyNormalizeUrl u p = some n → urlHashFn n ∉ st.urlHashes →
      st.maxDepth < d →
      addUrl st u d p pr = (false, { st with stats := { st.stats with
        totalSkipped := st.stats.totalSkipped + 1 } })) ∧
    (∀ n, pyNormalizeUrl u p = some n → urlHashFn n ∉ st.urlHashes →
      d ≤ st.maxDepth → st.maxPages ≤ st.visitedUrls.length →
      addUrl st u d p pr = (false, { st with stats := { st.stats with
        totalSkipped := st.stats.totalSkipped + 1 } })) ∧
    (∀ n, pyNormalizeUrl u p = some n → urlHashFn n ∉ st.urlHashes →
      st.maxDepth < d →
      ∀ d' pr', d' ≤ st.maxDepth → st.visitedUrls.length < st.maxPages →
        (addUrl (addUrl st u d p pr).2 u d' p pr').1 = true) := by
  refine ⟨?_, ?_, ?_, ?_, ?_⟩
  · intro h
    simp [addUrl, h]
  · intro n h hmem
    simp [addUrl, h, hmem]
  · intro n h hmem hd
    simp [addUrl, h, hmem, hd, Nat.not_le.mpr hd]
  · intro n h hmem hd hb
    simp [addUrl, h, hmem, Nat.not_lt.mpr hd, hb]
  · intro n h hmem hd d' pr' hd' hb
    have hskip : (addUrl st u d p pr).2 = { st with stats := { st.stats with
        totalSkipped := st.stats.totalSkipped + 1 } } := by
      simp [addUrl, h, hmem, hd]
    rw [hskip]
    simp [addUrl, h, hmem, Nat.not_lt.mpr hd', Nat.not_le.mpr hb]

/-- C10 witness: a URL skipped for exceeding `max_depth` is accepted later
at an admissible depth (no dedup-index pollution), and an invalid URL skip
only bumps the skip counter. -/
theorem addUrl_skip_frame_witness :
    (addUrl (addUrl (umInit "e.com" 1 10) "http://e.com/x" 2 none none).2
        "http://e.com/x" 1 none none).1 = true ∧
    addUrl (umInit "e.com" 1 10) "ftp://e.com/x" 0 none none =
      (false, { umInit "e.com" 1 10 with stats := { (umInit "e.com" 1 10).stats with
        totalSkipped := (umInit "e.com" 1 10).stats.totalSkipped + 1 } }) := by
  constructor
  · exact (addUrl_skip_frame (umInit "e.com" 1 10) "http://e.com/x" 2 none none).2.2.2.2
      "http://e.com/x" (by decide) (by decide) (by decide) 1 none (by decide) (by decide)
  · exact (addUrl_skip_frame (umInit "e.com" 1 10) "ftp://e.com/x" 0 none none).1 (by decide)

/-! ## Claim C4: dequeue ordering (confirmed)

`get_next_url` stably sorts the queue by `(priority, depth)` and pops the
front, so it returns an entry of minimal key, and among equal keys the
earliest-inserted one; on the fixed enqueue sequence with priorities
[2, 0, 1, 0] the dequeues return first-inserted-0, second-inserted-0, 1,
then 2. -/

/-- C4: every successful dequeue returns an entry `e` such that the queue
splits as `a ++ e :: b` with every earlier entry strictly greater and no
later entry strictly smaller in the `(priority, depth)` order (so `e` is the
earliest-inserted minimum); and the concrete [2, 0, 1, 0] scenario dequeues
in the order [0-first, 0-second, 1, 2]. -/
theorem getNextUrl_ordering :
    (∀ (st : UMState) (d : Nat) (u : String) (p : Option String) (st' : UMState),
      getNextUrl st = (some (d, u, p), st') →
      ∃ a b e, st.urlQueue = a ++ e :: b ∧ e.depth = d ∧ e.url = u ∧ e.parent = p ∧
        (∀ f ∈ a, qKeyLtB e f = true) ∧ (∀ f ∈ b, qKeyLtB f e = false)) ∧
    c4Pop1.1 = some (0, "http://example.com/p0a", none) ∧
    c4Pop2.1 = some (0, "http://example.com/p0b", none) ∧
    c4Pop3.1 = some (0, "http://example.com/p1", none) ∧
    c4Pop4.1 = some (0, "http://example.com/p2", none) ∧
    (getNextUrl c4Pop4.2).1 = none := by
  refine ⟨?_, by decide, by decide, by decide, by decide, by decide⟩
  intro st d u p st' h
  rw [getNextUrl] at h
  cases hq : sortByLt qKeyLtB st.urlQueue with
  | nil =>
    rw [hq] at h
    simp at h
  | cons e rest =>
    rw [hq] at h
    have hfst := congrArg Prod.fst h
    simp only [Option.some_inj, Prod.mk.injEq] at hfst
    obtain ⟨hd, hu, hp⟩ := hfst
    obtain ⟨a, b, hsplit, ha, hb⟩ := sortByLt_head qKeyLtB_trans qKeyLtB_neg hq
    exact ⟨a, b, e, hsplit, hd, hu, hp, ha, hb⟩

/-- C4 witness: the general dequeue characterization applied to the concrete
scenario state (whose queue is the four entries in insertion order). -/
theorem getNextUrl_ordering_witness :
    ∃ a b e, c4Step4.urlQueue = a ++ e :: b ∧
      e.depth = 0 ∧ e.url = "http://example.com/p0a" ∧ e.parent = none ∧
      (∀ f ∈ a, qKeyLtB e f = true) ∧ (∀ f ∈ b, qKeyLtB f e = false) := by
  exact getNextUrl_ordering.1 c4Step4 0 "http://example.com/p0a" none c4Pop1.2 (by decide)

/-! ## Claim C2: scope invariant of the crawl loop (confirmed)

The loop halts before fetching once `|visited| >= max_pages` and each
iteration marks at most one URL visited, so `|visited| <= max_pages` is
preserved; `add_url` rejects entries deeper than `max_depth`, so every queue
entry — hence every dequeued entry — has depth within the limit. -/

theorem addUrl_frame (st : UMState) (u : String) (d : Nat) (p : Option String)
    (pr : Option Nat) (h : frontierInv st) :
    frontierInv (addUrl st u d p pr).2 ∧
    (addUrl st u d p pr).2.visitedUrls = st.visitedUrls ∧
    (addUrl st u d p pr).2.maxPages = st.maxPages := by
  obtain ⟨hlen, hq⟩ := h
  cases hn : pyNormalizeUrl u p with
  | none =>
    simp only [addUrl, hn]
    exact ⟨⟨hlen, hq⟩, by trivial, by trivial⟩
  | some n =>
    simp only [addUrl, hn]
    split_ifs with hdup hdep hbud
    · exact ⟨⟨hlen, hq⟩, by trivial, by trivial⟩
    · exact ⟨⟨hlen, hq⟩, by trivial, by trivial⟩
    · exact ⟨⟨hlen, hq⟩, by trivial, by trivial⟩
    · refine ⟨⟨by simpa using hlen, ?_⟩, rfl, rfl⟩
      intro e he
      simp only [List.mem_append, List.mem_singleton] at he
      rcases he with he | he
      · exact hq e he
      · simp only [he]
        exact Nat.not_lt.mp hdep

theorem markVisited_frame (st : UMState) (u : String) :
    (markVisited st u).urlQueue = st.urlQueue ∧
    (markVisited st u).maxDepth = st.maxDepth ∧
    (markVisited st u).maxPages = st.maxPages ∧
    (markVisited st u).visitedUrls.length ≤ st.visitedUrls.length + 1 := by
  cases hn : pyNormalizeUrl u none with
  | none => simp [markVisited, hn]
  | some n => simp [markVisited, hn, setInsert_length_le]

theorem markFailed_frame (st : UMState) (u e : String) :
    (markFailed st u e).urlQueue = st.urlQueue ∧
    (markFailed st u e).maxDepth = st.maxDepth ∧
    (markFailed st u e).maxPages = st.maxPages ∧
    (markFailed st u e).visitedUrls = st.visitedUrls := by
  cases hn : pyNormalizeUrl u none with
  | none => simp [markFailed, hn]
  | some n => simp [markFailed, hn]

theorem getNextUrl_frame (st : UMState) :
    (getNextUrl st).2.visitedUrls = st.visitedUrls ∧
    (getNextUrl st).2.maxPages = st.maxPages ∧
    (getNextUrl st).2.maxDepth = st.maxDepth ∧
    ∀ e ∈ (getNextUrl st).2.urlQueue, e ∈ st.urlQueue := by
  rw [getNextUrl]
  cases hq : sortByLt qKeyLtB st.urlQueue with
  | nil => exact ⟨rfl, rfl, rfl, fun e he => he⟩
  | cons x rest =>
    refine ⟨rfl, rfl, rfl, fun e he => ?_⟩
    apply @sortByLt_mem _ qKeyLtB _ _
    rw [hq]
    exact List.mem_cons_of_mem _ he

theorem foldl_addUrl_inv {α : Type} (g : UMState → α → UMState)
    (hg : ∀ s x, frontierInv s → frontierInv (g s x) ∧
      (g s x).visitedUrls = s.visitedUrls ∧ (g s x).maxPages = s.maxPages)
    (l : List α) (st : UMState) (h : frontierInv st) :
    frontierInv (l.foldl g st) ∧ (l.foldl g st).visitedUrls = st.visitedUrls ∧
      (l.foldl g st).maxPages = st.maxPages := by
  induction l generalizing st with
  | nil => exact ⟨h, rfl, rfl⟩
  | cons x xs ih =>
    obtain ⟨h1, h2, h3⟩ := hg st x h
    obtain ⟨h4, h5, h6⟩ := ih (g st x) h1
    exact ⟨h4, by rw [List.foldl_cons, h5, h2], by rw [List.foldl_cons, h6, h3]⟩

/-- C2: the scope invariant `|visited| <= maxPages` together with the queue
depth bound is preserved by every loop iteration, holds after any number of
iterations from a state satisfying it, and every dequeued entry has depth at
most `maxDepth`. -/
theorem crawl_scope_invariant :
    (∀ (oracle : String → FetchOutcome) (st st' : UMState),
      frontierInv st → crawlStep oracle st = some st' → frontierInv st') ∧
    (∀ (oracle : String → FetchOutcome) (n : Nat) (st : UMState),
      frontierInv st → frontierInv (crawlRun oracle n st)) ∧
    (∀ (st : UMState) (d : Nat) (u : String) (p : Option String) (st1 : UMState),
      frontierInv st → getNextUrl st = (some (d, u, p), st1) → d ≤ st.maxDepth) := by
  have hstep : ∀ (oracle : String → FetchOutcome) (st st' : UMState),
      frontierInv st → crawlStep oracle st = some st' → frontierInv st' := by
    intro oracle st st' hinv hstep
    rw [crawlStep] at hstep
    rcases hget : getNextUrl st with ⟨o, st1⟩
    rw [hget] at hstep
    obtain ⟨hv1, hp1, hd1, hq1⟩ := getNextUrl_frame st
    rw [hget] at hv1 hp1 hd1 hq1
    have hinv1 : frontierInv st1 := by
      refine ⟨by rw [hv1, hp1]; exact hinv.1, ?_⟩
      intro e he
      rw [hd1]
      exact hinv.2 e (hq1 e he)
    cases o with
    | none => simp at hstep
    | some t =>
      obtain ⟨depth, url, parent⟩ := t
      simp only at hstep
      split_ifs at hstep with hbud hvis
      · exact Option.some_inj.mp hstep ▸ hinv1
      · have hlen : st1.visitedUrls.length < st1.maxPages := Nat.not_le.mp hbud
        have hmvinv : ∀ s : UMState, s.visitedUrls.length < s.maxPages →
            (∀ e ∈ s.urlQueue, e.depth ≤ s.maxDepth) → frontierInv (markVisited s url) := by
          intro s hs hqs
          obtain ⟨mq, md, mp, mv⟩ := markVisited_frame s url
          refine ⟨by rw [mp]; omega, ?_⟩
          intro e he
          rw [md]
          exact hqs e (mq ▸ he)
        cases horacle : oracle url with
        | failure err =>
          rw [horacle] at hstep
          cases err with
          | none =>
            simp only at hstep
            rw [← Option.some_inj.mp hstep]
            exact hmvinv st1 hlen hinv1.2
          | some e =>
            simp only at hstep
            rw [← Option.some_inj.mp hstep]
            obtain ⟨fq, fd, fp, fv⟩ := markFailed_frame st1 url e
            apply hmvinv (markFailed st1 url e)
            · rw [fv, fp]; exact hlen
            · intro x hx
              rw [fd]
              exact hinv1.2 x (fq ▸ hx)
        | htmlPage links docs =>
          rw [horacle] at hstep
          simp only at hstep
          rw [← Option.some_inj.mp hstep]
          have hinv2 : frontierInv (markVisited st1 url) := hmvinv st1 hlen hinv1.2
          have hg1 : ∀ (s : UMState) (x : String × Nat), frontierInv s →
              frontierInv ((addUrl s x.1 (depth + 1) (some url) (some x.2)).2) ∧
              ((addUrl s x.1 (depth + 1) (some url) (some x.2)).2).visitedUrls = s.visitedUrls ∧
              ((addUrl s x.1 (depth + 1) (some url) (some x.2)).2).maxPages = s.maxPages :=
            fun s x hs => addUrl_frame s x.1 (depth + 1) (some url) (some x.2) hs
          obtain ⟨h3, -, -⟩ := foldl_addUrl_inv _ hg1 links (markVisited st1 url) hinv2
          have hg2 : ∀ (s : UMState) (x : String), frontierInv s →
              frontierInv ((addUrl s x depth (some url) (some 0)).2) ∧
              ((addUrl s x depth (some url) (some 0)).2).visitedUrls = s.visitedUrls ∧
              ((addUrl s x depth (some url) (some 0)).2).maxPages = s.maxPages :=
            fun s x hs => addUrl_frame s x depth (some url) (some 0) hs
          obtain ⟨h4, -, -⟩ := foldl_addUrl_inv _ hg2 docs _ h3
          exact h4
        | nonHtml =>
          rw [horacle] at hstep
          simp only at hstep
          rw [← Option.some_inj.mp hstep]
          exact hmvinv st1 hlen hinv1.2
  refine ⟨hstep, ?_, ?_⟩
  · intro oracle n
    induction n with
    | zero => intro st h; exact h
    | succ m ih =>
      intro st h
      rw [crawlRun]
      cases hs : crawlStep oracle st with
      | none => exact h
      | some st' => exact ih st' (hstep oracle st st' h hs)
  · intro st d u p st1 hinv hget
    rw [getNextUrl] at hget
    cases hq : sortByLt qKeyLtB st.urlQueue with
    | nil => rw [hq] at hget; simp at hget
    | cons e rest =>
      rw [hq] at hget
      have hfst := congrArg Prod.fst hget
      simp only [Option.some_inj, Prod.mk.injEq] at hfst
      have he : e ∈ st.urlQueue := by
        apply @sortByLt_mem _ qKeyLtB _ _
        rw [hq]; simp
      rw [← hfst.1]
      exact hinv.2 e he

/-- C2 witness: the invariant holds after running the loop on the concrete
scenario state, and the first dequeue from it respects the depth bound. -/
theorem crawl_scope_invariant_witness :
    frontierInv (crawlRun (fun _ => FetchOutcome.nonHtml) 3 c4Step4) ∧ (0 : Nat) ≤ c4Step4.maxDepth := by
  constructor
  · exact crawl_scope_invariant.2.1 (fun _ => FetchOutcome.nonHtml) 3 c4Step4
      ⟨by decide, by decide⟩
  · exact crawl_scope_invariant.2.2 c4Step4 0 "http://example.com/p0a" none c4Pop1.2
      ⟨by decide, by decide⟩ (by decide)

/-! ## Claim C9: trailing-slash stripping (corrected)

`normalize_url` runs `path.rstrip('/')`, which removes *all* trailing
slashes (matching its own docstring "Removes trailing slashes"), not a
single one as the claim states. -/

/-- C9 counterexample: the path of `http://e.com/a//` ends in two slashes;
stripping a single one would give `http://e.com/a/`, but the code yields
`http://e.com/a`. -/
theorem canonPath_single_slash_counterexample :
    pyNormalizeUrl "http://e.com/a//" none = some "http://e.com/a" ∧
    some "http://e.com/a" ≠ some "http://e.com/a/" := by
  exact ⟨by decide, by decide⟩

/-- C9 amended: for every URL whose parsed path ends in a slash and is not
the root path `/`, the canonical form is built from the path with *all*
trailing slashes removed (`rstrip('/')`). -/
theorem normalize_strips_all_trailing_slashes (u : String) (pu : PyParsedUrl)
    (hp : pyUrlparseL u.data [] = some pu)
    (hs : pu.scheme = "http".data ∨ pu.scheme = "https".data)
    (hend : hasSuffix pu.path "/".data = true) (hne : pu.path ≠ "/".data) :
    normListL u.data none =
      some (pyUrlunparseL ⟨canonScheme pu.scheme, canonNetloc pu.scheme pu.netloc,
        rstripSlashes pu.path, pu.params,
        (if pu.query ≠ [] then pyCanonQuery pu.query else []), []⟩) := by
  have ht : normTransform pu = some ⟨canonScheme pu.scheme,
      canonNetloc pu.scheme pu.netloc, rstripSlashes pu.path, pu.params,
      (if pu.query ≠ [] then pyCanonQuery pu.query else []), []⟩ := by
    rcases hs with hs | hs <;>
      simp [normTransform, hs, canonPath, hend, hne]
  simp [normListL, hp, ht]

/-- C9 witness: the amended statement at `http://e.com/a//`. -/
theorem normalize_strips_all_trailing_slashes_witness :
    normListL "http://e.com/a//".data none =
      some (pyUrlunparseL ⟨canonScheme "http".data, canonNetloc "http".data "e.com".data,
        rstripSlashes "/a//".data, [],
        (if ([] : List Char) ≠ [] then pyCanonQuery [] else []), []⟩) := by
  exact normalize_strips_all_trailing_slashes "http://e.com/a//"
    ⟨"http".data, "e.com".data, "/a//".data, [], [], []⟩
    (by decide) (Or.inl rfl) (by decide) (by decide)

/-! ## Character arithmetic toolkit -/

theorem charToNat_ofNat {n : Nat} (h : n < 0xD800) : (Char.ofNat n).toNat = n := by
  have hv : n.isValidChar := Or.inl h
  simp only [Char.ofNat, dif_pos hv, Char.ofNatAux, Char.toNat]
  rfl

theorem char_eq_iff_toNat {a b : Char} : a = b ↔ a.toNat = b.toNat :=
  ⟨fun h => h ▸ rfl, fun h => Char.ext (UInt32.toNat.inj h)⟩

theorem char_le_iff_toNat {a b : Char} : a ≤ b ↔ a.toNat ≤ b.toNat := by
  rw [Char.le_def]
  exact ⟨fun h => h, fun h => h⟩

theorem char_toNat_valid (c : Char) :
    c.toNat < 0xD800 ∨ (0xDFFF < c.toNat ∧ c.toNat < 0x110000) := by
  have h := c.valid
  simp only [UInt32.isValidChar, Nat.isValidChar] at h
  exact h

/-! ## UTF-8 round trip -/

theorem utf8DecodeReplace_encodeChar (c : Char) (bs : List Nat) :
    utf8DecodeReplace (utf8EncodeChar c ++ bs) = c :: utf8DecodeReplace bs := by
  have hvalid := char_toNat_valid c
  rw [utf8EncodeChar]
  by_cases h1 : c.toNat < 0x80
  · rw [if_pos h1]
    simp only [List.cons_append, List.nil_append]
    rw [utf8DecodeReplace.eq_def]
    simp [h1, Char.ofNat_toNat]
  · rw [if_neg h1]
    by_cases h2 : c.toNat < 0x800
    · rw [if_pos h2]
      simp only [List.cons_append, List.nil_append]
      rw [utf8DecodeReplace.eq_def]
      have e1 : ¬(0xC0 + c.toNat / 0x40 < 0x80) := by omega
      have e2 : 0xC2 ≤ 0xC0 + c.toNat / 0x40 ∧ 0xC0 + c.toNat / 0x40 ≤ 0xDF := by
        constructor <;> omega
      have e3 : contByte (0x80 + c.toNat % 0x40) = true := by
        simp only [contByte, decide_eq_true_eq]
        constructor <;> omega
      simp only [e1, e2, e3, if_true, if_false, ite_true, ite_false,
        not_false_eq_true, and_self]
      rw [List.cons.injEq]
      refine ⟨?_, rfl⟩
      rw [char_eq_iff_toNat, charToNat_ofNat (by omega)]
      omega
    · rw [if_neg h2]
      by_cases h3 : c.toNat < 0x10000
      · rw [if_pos h3]
        simp only [List.cons_append, List.nil_append]
        rw [utf8DecodeReplace.eq_def]
        have e1 : ¬(0xE0 + c.toNat / 0x1000 < 0x80) := by omega
        have e2 : ¬(0xC2 ≤ 0xE0 + c.toNat / 0x1000 ∧ 0xE0 + c.toNat / 0x1000 ≤ 0xDF) := by
          omega
        have e3 : 0xE0 ≤ 0xE0 + c.toNat / 0x1000 ∧ 0xE0 + c.toNat / 0x1000 ≤ 0xEF := by
          constructor <;> omega
        have e4 : contByte (0x80 + c.toNat / 0x40 % 0x40) = true ∧
            (0xE0 + c.toNat / 0x1000 = 0xE0 → 0xA0 ≤ 0x80 + c.toNat / 0x40 % 0x40) ∧
            (0xE0 + c.toNat / 0x1000 = 0xED → 0x80 + c.toNat / 0x40 % 0x40 ≤ 0x9F) := by
          refine ⟨by simp only [contByte, decide_eq_true_eq]; constructor <;> omega,
            fun he => by omega, fun he => by omega⟩
        have e5 : contByte (0x80 + c.toNat % 0x40) = true := by
          simp only [contByte, decide_eq_true_eq]
          constructor <;> omega
        have d1 : c.toNat / 64 / 64 = c.toNat / 4096 := by
          rw [Nat.div_div_eq_div_mul]
        simp only [e1, e2, e3, e5, if_true, if_false, ite_true, ite_false,
          not_false_eq_true, and_self]
        rw [if_pos e4]
        rw [List.cons.injEq]
        refine ⟨?_, rfl⟩
        have hx : ∀ m, m = c.toNat → Char.ofNat m = c := fun m hm =>
          hm ▸ Char.ofNat_toNat c
        apply hx
        omega
      · rw [if_neg h3]
        simp only [List.cons_append, List.nil_append]
        rw [utf8DecodeReplace.eq_def]
        have e1 : ¬(0xF0 + c.toNat / 0x40000 < 0x80) := by omega
        have e2 : ¬(0xC2 ≤ 0xF0 + c.toNat / 0x40000 ∧ 0xF0 + c.toNat / 0x40000 ≤ 0xDF) := by
          omega
        have e3 : ¬(0xE0 ≤ 0xF0 + c.toNat / 0x40000 ∧ 0xF0 + c.toNat / 0x40000 ≤ 0xEF) := by
          omega
        have e4 : 0xF0 ≤ 0xF0 + c.toNat / 0x40000 ∧ 0xF0 + c.toNat / 0x40000 ≤ 0xF4 := by
          constructor <;> omega
        have e5 : contByte (0x80 + c.toNat / 0x1000 % 0x40) = true ∧
            (0xF0 + c.toNat / 0x40000 = 0xF0 → 0x90 ≤ 0x80 + c.toNat / 0x1000 % 0x40) ∧
            (0xF0 + c.toNat / 0x40000 = 0xF4 → 0x80 + c.toNat / 0x1000 % 0x40 ≤ 0x8F) := by
          refine ⟨by simp only [contByte, decide_eq_true_eq]; constructor <;> omega,
            fun he => by omega, fun he => by omega⟩
        have e6 : contByte (0x80 + c.toNat / 0x40 % 0x40) = true := by
          simp only [contByte, decide_eq_true_eq]
          constructor <;> omega
        have e7 : contByte (0x80 + c.toNat % 0x40) = true := by
          simp only [contByte, decide_eq_true_eq]
          constructor <;> omega
        have d1 : c.toNat / 64 / 64 = c.toNat / 4096 := by
          rw [Nat.div_div_eq_div_mul]
        have d2 : c.toNat / 4096 / 64 = c.toNat / 262144 := by
          rw [Nat.div_div_eq_div_mul]
        simp only [e1, e2, e3, e4, e6, e7, if_true, if_false, ite_true, ite_false,
          not_false_eq_true, and_self]
        rw [if_pos e5]
        rw [List.cons.injEq]
        refine ⟨?_, rfl⟩
        have hx : ∀ m, m = c.toNat → Char.ofNat m = c := fun m hm =>
          hm ▸ Char.ofNat_toNat c
        apply hx
        omega

theorem utf8DecodeReplace_encode (s : List Char) :
    utf8DecodeReplace (utf8Encode s) = s := by
  induction s with
  | nil => rfl
  | cons c cs ih =>
    rw [utf8Encode, concatMap, ← utf8Encode, utf8DecodeReplace_encodeChar, ih]

/-! ## `unquote_plus` inverts `quote_plus` -/

theorem concatMap_append (f : α → List β) (a b : List α) :
    concatMap f (a ++ b) = concatMap f a ++ concatMap f b := by
  induction a with
  | nil => rfl
  | cons x xs ih => simp [concatMap, ih]

theorem concatMap_congr {f g : α → List β} {l : List α}
    (h : ∀ a ∈ l, f a = g a) : concatMap f l = concatMap g l := by
  induction l with
  | nil => rfl
  | cons x xs ih =>
    rw [concatMap, concatMap, h x (by simp), ih (fun a ha => h a (by simp [ha]))]

theorem map_concatMap (f : β → γ) (g : α → List β) (l : List α) :
    (concatMap g l).map f = concatMap (fun x => (g x).map f) l := by
  induction l with
  | nil => rfl
  | cons x xs ih => simp [concatMap, ih]

theorem hexVal_hexUpper : ∀ n < 16, hexDigitVal (hexUpperChar n) = some n := by
  decide

theorem plusToSpace_hexUpper : ∀ n < 16, plusToSpace (hexUpperChar n) = hexUpperChar n := by
  decide

theorem utf8EncodeChar_lt (c : Char) : ∀ b ∈ utf8EncodeChar c, b < 256 := by
  have hvalid := char_toNat_valid c
  rw [utf8EncodeChar]
  split_ifs with h1 h2 h3 <;> intro b hb <;>
    simp only [List.mem_cons, List.not_mem_nil, or_false] at hb
  · omega
  · rcases hb with rfl | rfl <;> omega
  · rcases hb with rfl | rfl | rfl <;> omega
  · rcases hb with rfl | rfl | rfl | rfl <;> omega

theorem pyUnquoteAux_cons_ne (c : Char) (cs : List Char) (acc : List Nat)
    (h : c ≠ '%') :
    pyUnquoteAux (c :: cs) acc =
      utf8DecodeReplace acc.reverse ++ c :: pyUnquoteAux cs [] := by
  rw [pyUnquoteAux.eq_def]
  split <;> simp_all

theorem pyUnquoteAux_escape (c1 c2 : Char) (rest : List Char) (acc : List Nat)
    (hv lv : Nat) (h1 : hexDigitVal c1 = some hv) (h2 : hexDigitVal c2 = some lv) :
    pyUnquoteAux ('%' :: c1 :: c2 :: rest) acc =
      pyUnquoteAux rest ((hv * 16 + lv) :: acc) := by
  rw [pyUnquoteAux.eq_def]
  split
  · simp_all
  · simp_all
  · rename_i c' cs' hno heq
    injection heq with he1 he2
    exact absurd he2.symm (hno _ _ _ he1.symm)

theorem pyUnquoteAux_escapeByte (b : Nat) (hb : b < 256) (t : List Char)
    (acc : List Nat) :
    pyUnquoteAux (escapeByte b ++ t) acc = pyUnquoteAux t (b :: acc) := by
  have h1 := hexVal_hexUpper (b / 16) (by omega)
  have h2 := hexVal_hexUpper (b % 16) (by omega)
  show pyUnquoteAux ('%' :: hexUpperChar (b / 16) :: hexUpperChar (b % 16) :: t) acc = _
  rw [pyUnquoteAux_escape _ _ _ _ _ _ h1 h2]
  have hb' : b / 16 * 16 + b % 16 = b := by omega
  rw [hb']

theorem pyUnquoteAux_escBytes (B : List Nat) (hB : ∀ b ∈ B, b < 256)
    (t : List Char) (acc : List Nat) :
    pyUnquoteAux (concatMap escapeByte B ++ t) acc =
      pyUnquoteAux t (B.reverse ++ acc) := by
  induction B generalizing acc with
  | nil => simp [concatMap]
  | cons b B' ih =>
    rw [concatMap, List.append_assoc, pyUnquoteAux_escapeByte b (hB b (by simp))]
    rw [ih (fun x hx => hB x (by simp [hx]))]
    congr 1
    simp

theorem map_plusToSpace_quoteChar (c : Char) :
    (pyQuotePlusChar c).map plusToSpace =
      if alwaysSafeChar c = true then [c]
      else if c = ' ' then [' ']
      else concatMap escapeByte (utf8EncodeChar c) := by
  rw [pyQuotePlusChar]
  by_cases hs : alwaysSafeChar c = true
  · rw [if_pos hs, if_pos hs]
    have hplus : plusToSpace c = c := by
      rw [plusToSpace, if_neg]
      intro h
      rw [h] at hs
      exact absurd hs (by decide)
    simp [hplus]
  · rw [if_neg hs, if_neg hs]
    by_cases hsp : c = ' '
    · subst hsp
      rfl
    · rw [if_neg hsp, if_neg hsp]
      rw [map_concatMap]
      apply concatMap_congr
      intro b hb
      have hb' : b < 256 := utf8EncodeChar_lt c b hb
      rw [escapeByte]
      simp only [List.map_cons, List.map_nil]
      rw [show plusToSpace '%' = '%' from rfl,
        plusToSpace_hexUpper (b / 16) (by omega),
        plusToSpace_hexUpper (b % 16) (by omega)]

theorem pyUnquoteAux_quotePlus (s : List Char) :
    ∀ w : List Char,
      pyUnquoteAux ((pyQuotePlus s).map plusToSpace) (utf8Encode w).reverse = w ++ s := by
  induction s with
  | nil =>
    intro w
    show utf8DecodeReplace (utf8Encode w).reverse.reverse = w ++ []
    rw [List.reverse_reverse, utf8DecodeReplace_encode, List.append_nil]
  | cons c cs ih =>
    intro w
    have hq : pyQuotePlus (c :: cs) = pyQuotePlusChar c ++ pyQuotePlus cs := rfl
    rw [hq, List.map_append, map_plusToSpace_quoteChar]
    by_cases hs : alwaysSafeChar c = true
    · rw [if_pos hs]
      have hc : c ≠ '%' := by
        intro h
        rw [h] at hs
        exact absurd hs (by decide)
      rw [List.cons_append, List.nil_append, pyUnquoteAux_cons_ne c _ _ hc]
      rw [List.reverse_reverse, utf8DecodeReplace_encode]
      have h0 := ih []
      rw [show ((utf8Encode []).reverse : List Nat) = [] from rfl] at h0
      rw [h0]
      simp
    · rw [if_neg hs]
      by_cases hsp : c = ' '
      · rw [if_pos hsp]
        have hc : (' ' : Char) ≠ '%' := by decide
        rw [List.cons_append, List.nil_append, pyUnquoteAux_cons_ne ' ' _ _ hc]
        rw [List.reverse_reverse, utf8DecodeReplace_encode]
        have h0 := ih []
        rw [show ((utf8Encode []).reverse : List Nat) = [] from rfl] at h0
        rw [h0, hsp]
        simp
      · rw [if_neg hsp]
        rw [pyUnquoteAux_escBytes _ (utf8EncodeChar_lt c)]
        have hacc : (utf8EncodeChar c).reverse ++ (utf8Encode w).reverse =
            (utf8Encode (w ++ [c])).reverse := by
          rw [← List.reverse_append]
          congr 1
          simp [utf8Encode, concatMap_append, concatMap]
        rw [hacc, ih]
        simp

/-- `unquote_plus(quote_plus(s)) = s`: the decode side of `parse_qsl`
exactly inverts the encode side of `urlencode`. -/
theorem unquotePlus_quotePlus (s : List Char) :
    pyUnquotePlus (pyQuotePlus s) = s := by
  rw [pyUnquotePlus, pyUnquote]
  have h := pyUnquoteAux_quotePlus s []
  rw [show ((utf8Encode []).reverse : List Nat) = [] from rfl] at h
  simpa using h

/-! ## The alphabet of `quote_plus` output -/

theorem mem_concatMap {f : α → List β} {l : List α} {c : β} :
    c ∈ concatMap f l ↔ ∃ a ∈ l, c ∈ f a := by
  induction l with
  | nil => simp [concatMap]
  | cons x xs ih => simp [concatMap, ih]

theorem hexUpper_isHexDigit : ∀ n < 16, isHexUpperDigit (hexUpperChar n) = true := by
  decide

theorem quotePlus_chars {s : List Char} : ∀ c ∈ pyQuotePlus s,
    alwaysSafeChar c = true ∨ c = '+' ∨ c = '%' ∨ isHexUpperDigit c = true := by
  intro c hc
  rw [pyQuotePlus] at hc
  obtain ⟨x, -, hcx⟩ := mem_concatMap.mp hc
  rw [pyQuotePlusChar] at hcx
  by_cases hs : alwaysSafeChar x = true
  · rw [if_pos hs] at hcx
    simp only [List.mem_singleton] at hcx
    exact Or.inl (hcx ▸ hs)
  · rw [if_neg hs] at hcx
    by_cases hsp : x = ' '
    · rw [if_pos hsp] at hcx
      simp only [List.mem_singleton] at hcx
      exact Or.inr (Or.inl hcx)
    · rw [if_neg hsp] at hcx
      obtain ⟨b, hb, hcb⟩ := mem_concatMap.mp hcx
      have hb' : b < 256 := utf8EncodeChar_lt x b hb
      rw [escapeByte] at hcb
      simp only [List.mem_cons, List.not_mem_nil, or_false] at hcb
      rcases hcb with rfl | rfl | rfl
      · exact Or.inr (Or.inr (Or.inl rfl))
      · exact Or.inr (Or.inr (Or.inr (hexUpper_isHexDigit (b / 16) (by omega))))
      · exact Or.inr (Or.inr (Or.inr (hexUpper_isHexDigit (b % 16) (by omega))))

theorem quotePlus_not_mem (s : List Char) (b : Char)
    (h1 : alwaysSafeChar b = false) (h2 : b ≠ '+') (h3 : b ≠ '%')
    (h4 : isHexUpperDigit b = false) : b ∉ pyQuotePlus s := by
  intro hb
  rcases quotePlus_chars b hb with h | h | h | h <;> simp_all

/-! ## `split` / `join` round trip -/

theorem splitOnChar_ne_nil {sep : Char} (l : List Char) : splitOnChar sep l ≠ [] := by
  cases l with
  | nil => simp [splitOnChar]
  | cons c cs =>
    rw [splitOnChar]
    cases h : splitOnChar sep cs with
    | nil => simp
    | cons x xs => by_cases hc : c = sep <;> simp [hc]

theorem splitOnChar_no_sep {sep : Char} {p : List Char} (h : sep ∉ p) :
    splitOnChar sep p = [p] := by
  induction p with
  | nil => rfl
  | cons c cs ih =>
    simp only [List.mem_cons, not_or] at h
    rw [splitOnChar, ih h.2]
    simp [Ne.symm h.1]

theorem splitOnChar_append {sep : Char} {p : List Char} (t : List Char)
    (h : sep ∉ p) : splitOnChar sep (p ++ sep :: t) = p :: splitOnChar sep t := by
  induction p with
  | nil =>
    simp only [List.nil_append]
    rw [splitOnChar]
    cases ht : splitOnChar sep t with
    | nil => exact absurd ht (splitOnChar_ne_nil t)
    | cons x xs => simp
  | cons c cs ih =>
    simp only [List.mem_cons, not_or] at h
    simp only [List.cons_append]
    rw [splitOnChar, ih h.2]
    simp [Ne.symm h.1]

theorem splitOnChar_joinChar {sep : Char} {ps : List (List Char)} (hne : ps ≠ [])
    (h : ∀ p ∈ ps, sep ∉ p) : splitOnChar sep (joinChar sep ps) = ps := by
  induction ps with
  | nil => exact absurd rfl hne
  | cons p ps' ih =>
    cases ps' with
    | nil => exact splitOnChar_no_sep (h p (by simp))
    | cons q qs =>
      have hne' : q :: qs ≠ [] := List.cons_ne_nil q qs
      have hrec := ih hne' (fun x hx => h x (by simp [hx]))
      rw [joinChar, splitOnChar_append _ (h p (by simp)), hrec]
      exact fun hx => List.noConfusion hx

theorem joinChar_ne_nil {sep : Char} {p : List Char} {ps : List (List Char)}
    (hp : p ≠ []) : joinChar sep (p :: ps) ≠ [] := by
  cases ps with
  | nil => simpa [joinChar] using hp
  | cons q qs => simp [joinChar]

/-! ## `parse_qsl` inverts `urlencode(..., doseq=True)` -/

theorem qslField_encode (k v : List Char) :
    qslField (pyQuotePlus k ++ '=' :: pyQuotePlus v) = some (k, v) := by
  rw [qslField]
  rw [if_neg (by simp)]
  rw [breakAtChar_append _ (quotePlus_not_mem k '=' (by decide) (by decide) (by decide)
    (by decide))]
  show some (pyUnquotePlus (pyQuotePlus k), pyUnquotePlus (pyQuotePlus v)) = some (k, v)
  rw [unquotePlus_quotePlus, unquotePlus_quotePlus]

theorem filterMap_concatMap (f : β → Option γ) (g : α → List β) (l : List α) :
    (concatMap g l).filterMap f = concatMap (fun x => (g x).filterMap f) l := by
  induction l with
  | nil => rfl
  | cons x xs ih => simp [concatMap, List.filterMap_append, ih]

theorem parseQsl_urlencode (S : List (List Char × List (List Char)))
    (hne : S ≠ []) (hvals : ∀ kv ∈ S, kv.2 ≠ []) :
    pyParseQsl (pyUrlencode S) = flattenq S := by
  have hpiece : ∀ p ∈ concatMap
      (fun kv => kv.2.map (fun v => pyQuotePlus kv.1 ++ '=' :: pyQuotePlus v)) S,
      ('&' ∉ p) ∧ p ≠ [] := by
    intro p hp
    obtain ⟨kv, -, hpk⟩ := mem_concatMap.mp hp
    obtain ⟨v, -, hv⟩ := List.mem_map.mp hpk
    constructor
    · rw [← hv]
      intro hmem
      rcases List.mem_append.mp hmem with hmem | hmem
      · exact quotePlus_not_mem kv.1 '&' (by decide) (by decide) (by decide)
          (by decide) hmem
      · rcases List.mem_cons.mp hmem with hmem | hmem
        · exact absurd hmem (by decide)
        · exact quotePlus_not_mem v '&' (by decide) (by decide) (by decide)
            (by decide) hmem
    · rw [← hv]; simp
  have hps_ne : concatMap
      (fun kv => kv.2.map (fun v => pyQuotePlus kv.1 ++ '=' :: pyQuotePlus v)) S ≠ [] := by
    cases S with
    | nil => exact absurd rfl hne
    | cons kv S' =>
      rw [concatMap]
      cases hv : kv.2 with
      | nil => exact absurd hv (hvals kv (by simp))
      | cons v vs => simp
  have hjoin_ne : pyUrlencode S ≠ [] := by
    rw [pyUrlencode]
    cases hps : concatMap
        (fun kv => kv.2.map (fun v => pyQuotePlus kv.1 ++ '=' :: pyQuotePlus v)) S with
    | nil => exact absurd hps hps_ne
    | cons p ps' =>
      have hp : p ≠ [] := (hpiece p (by rw [hps]; simp)).2
      exact joinChar_ne_nil hp
  rw [pyParseQsl, if_neg hjoin_ne, pyUrlencode]
  rw [splitOnChar_joinChar hps_ne (fun p hp => (hpiece p hp).1)]
  rw [filterMap_concatMap]
  rw [flattenq]
  apply concatMap_congr
  intro kv _
  induction kv.2 with
  | nil => rfl
  | cons v vs ih =>
    simp only [List.map_cons, List.filterMap_cons, qslField_encode]
    exact congrArg _ ih

/-! ## Lexicographic string comparison: asymmetry and negative transitivity -/

theorem strLtB_asym : ∀ (a b : List Char), strLtB a b = true → strLtB b a = false := by
  intro a
  induction a with
  | nil =>
    intro b h
    cases b with
    | nil => simp [strLtB] at h
    | cons y ys => simp [strLtB]
  | cons x xs ih =>
    intro b h
    cases b with
    | nil => simp [strLtB] at h
    | cons y ys =>
      rw [strLtB] at h ⊢
      by_cases h1 : x.toNat < y.toNat
      · rw [if_neg (by omega : ¬ y.toNat < x.toNat), if_pos h1]
      · rw [if_neg h1] at h
        by_cases h2 : y.toNat < x.toNat
        · rw [if_pos h2] at h
          exact absurd h (by simp)
        · rw [if_neg h2] at h
          rw [if_neg h2, if_neg h1]
          exact ih ys h

theorem strLtB_negTrans : ∀ (a b c : List Char),
    strLtB a b = false → strLtB b c = false → strLtB a c = false := by
  intro a
  induction a with
  | nil =>
    intro b c h1 h2
    cases b with
    | nil =>
      cases c with
      | nil => rfl
      | cons z zs => simp [strLtB] at h2
    | cons y ys => simp [strLtB] at h1
  | cons x xs ih =>
    intro b c h1 h2
    cases b with
    | nil =>
      cases c with
      | nil => rfl
      | cons z zs => simp [strLtB] at h2
    | cons y ys =>
      cases c with
      | nil => rfl
      | cons z zs =>
        rw [strLtB] at h1 h2 ⊢
        by_cases hxy : x.toNat < y.toNat
        · rw [if_pos hxy] at h1
          exact absurd h1 (by simp)
        · rw [if_neg hxy] at h1
          by_cases hyz : y.toNat < z.toNat
          · rw [if_pos hyz] at h2
            exact absurd h2 (by simp)
          · rw [if_neg hyz] at h2
            by_cases hxz : x.toNat < z.toNat
            · omega
            · rw [if_neg hxz]
              by_cases hzx : z.toNat < x.toNat
              · rw [if_pos hzx]
              · rw [if_neg hzx]
                rw [if_neg (by omega : ¬ y.toNat < x.toNat)] at h1
                rw [if_neg (by omega : ¬ z.toNat < y.toNat)] at h2
                exact ih ys zs h1 h2

/-! ## `parse_qs` dict-building: grouping recovers a nodup grouped list -/

theorem dictMap_skip {k v : List Char} {pre : List (List Char × List (List Char))}
    (h : k ∉ pre.map Prod.fst) :
    pre.map (fun e => if e.1 = k then (e.1, e.2 ++ [v]) else e) = pre := by
  induction pre with
  | nil => rfl
  | cons e es ih =>
    simp only [List.map_cons, List.mem_cons, not_or] at h ⊢
    rw [if_neg (fun hh => h.1 hh.symm), ih h.2]

theorem dictAny_false {k : List Char} {d : List (List Char × List (List Char))}
    (h : k ∉ d.map Prod.fst) : d.any (fun e => e.1 = k) = false := by
  simp only [List.any_eq_false, decide_eq_true_eq]
  intro e he hk
  exact h (hk ▸ List.mem_map_of_mem Prod.fst he)

theorem qsDictAppend_append_left {acc0 d : List (List Char × List (List Char))}
    {pr : List Char × List Char} (h : pr.1 ∉ acc0.map Prod.fst) :
    qsDictAppend (acc0 ++ d) pr = acc0 ++ qsDictAppend d pr := by
  rw [qsDictAppend, qsDictAppend, List.any_append, dictAny_false h, Bool.false_or]
  by_cases hd : d.any (fun e => e.1 = pr.1) = true
  · rw [if_pos hd, if_pos hd, List.map_append, dictMap_skip h]
  · rw [if_neg hd, if_neg hd, List.append_assoc]

theorem foldl_qsDict_append_left {pairs : List (List Char × List Char)}
    {acc0 : List (List Char × List (List Char))}
    (h : ∀ pr ∈ pairs, pr.1 ∉ acc0.map Prod.fst) :
    ∀ d, pairs.foldl qsDictAppend (acc0 ++ d) = acc0 ++ pairs.foldl qsDictAppend d := by
  induction pairs with
  | nil => intro d; rfl
  | cons pr rest ih =>
    intro d
    rw [List.foldl_cons, List.foldl_cons, qsDictAppend_append_left (h pr (by simp))]
    exact ih (fun x hx => h x (by simp [hx])) _

theorem qsDictAppend_last {k v : List Char} {cur : List (List Char)}
    {pre : List (List Char × List (List Char))} (hk : k ∉ pre.map Prod.fst) :
    qsDictAppend (pre ++ [(k, cur)]) (k, v) = pre ++ [(k, cur ++ [v])] := by
  simp only [qsDictAppend]
  have hany : (pre ++ [(k, cur)]).any (fun e => e.1 = k) = true := by
    simp [List.any_append]
  rw [if_pos hany, List.map_append, dictMap_skip hk]
  simp

theorem foldl_qsDict_extend {k : List Char} {vs : List (List Char)}
    {pre : List (List Char × List (List Char))}
    (hk : k ∉ pre.map Prod.fst) : ∀ (cur : List (List Char)),
    (vs.map (fun v => (k, v))).foldl qsDictAppend (pre ++ [(k, cur)]) =
      pre ++ [(k, cur ++ vs)] := by
  induction vs with
  | nil => intro cur; simp
  | cons v vrest ih =>
    intro cur
    rw [List.map_cons, List.foldl_cons, qsDictAppend_last hk, ih (cur ++ [v])]
    simp

theorem flattenq_keys {S : List (List Char × List (List Char))}
    {pr : List Char × List Char} (h : pr ∈ flattenq S) : pr.1 ∈ S.map Prod.fst := by
  rw [flattenq] at h
  obtain ⟨kv, hkv, hpk⟩ := mem_concatMap.mp h
  obtain ⟨v, -, hv⟩ := List.mem_map.mp hpk
  rw [← hv]
  exact List.mem_map_of_mem Prod.fst hkv

theorem groupPairs_flattenq : ∀ (S : List (List Char × List (List Char))),
    (S.map Prod.fst).Nodup → (∀ kv ∈ S, kv.2 ≠ []) →
    (flattenq S).foldl qsDictAppend [] = S := by
  intro S
  induction S with
  | nil => intro _ _; rfl
  | cons kv S' ih =>
    intro hnodup hvals
    rw [List.map_cons] at hnodup
    have hk : kv.1 ∉ S'.map Prod.fst := (List.nodup_cons.mp hnodup).1
    rw [flattenq, concatMap, List.foldl_append]
    have hinner : (kv.2.map (fun v => (kv.1, v))).foldl qsDictAppend []
        = [(kv.1, kv.2)] := by
      cases hv : kv.2 with
      | nil => exact absurd hv (hvals kv (by simp))
      | cons v vrest =>
        rw [List.map_cons, List.foldl_cons]
        rw [show qsDictAppend [] (kv.1, v) = [(kv.1, [v])] from rfl]
        have h2 := @foldl_qsDict_extend kv.1 vrest [] (by simp) [v]
        simp only [List.nil_append] at h2
        rw [h2]
        simp [hv]
    rw [hinner]
    have hmain := @foldl_qsDict_append_left (flattenq S') [(kv.1, kv.2)]
      (fun pr hpr => by
        have h1 := flattenq_keys hpr
        simp only [List.map_cons, List.map_nil, List.mem_singleton]
        intro he
        exact hk (he ▸ h1)) []
    simp only [List.append_nil] at hmain
    rw [flattenq] at hmain
    have hrec := ih (List.nodup_cons.mp hnodup).2 (fun x hx => hvals x (by simp [hx]))
    rw [flattenq] at hrec
    rw [hmain, hrec]
    simp

theorem foldl_qsDict_nodup : ∀ (pairs : List (List Char × List Char))
    (acc : List (List Char × List (List Char))),
    (acc.map Prod.fst).Nodup → ((pairs.foldl qsDictAppend acc).map Prod.fst).Nodup := by
  intro pairs
  induction pairs with
  | nil => intro acc h; exact h
  | cons pr rest ih =>
    intro acc h
    rw [List.foldl_cons]
    apply ih
    rw [qsDictAppend]
    by_cases hany : acc.any (fun e => e.1 = pr.1) = true
    · rw [if_pos hany]
      have hmap : (acc.map (fun e => if e.1 = pr.1 then (e.1, e.2 ++ [pr.2]) else e)).map
          Prod.fst = acc.map Prod.fst := by
        rw [List.map_map]
        apply List.map_congr_left
        intro e _
        by_cases hc : e.1 = pr.1 <;> simp [hc]
      rw [hmap]
      exact h
    · rw [if_neg hany, List.map_append]
      have hnot : pr.1 ∉ acc.map Prod.fst := by
        intro hmem
        obtain ⟨e, he, hfe⟩ := List.mem_map.mp hmem
        apply hany
        simp only [List.any_eq_true, decide_eq_true_eq]
        exact ⟨e, he, hfe⟩
      rw [List.nodup_append]
      refine ⟨h, List.nodup_singleton _, fun a ha hb => ?_⟩
      have hab : a = pr.1 := by simpa using hb
      exact hnot (hab ▸ ha)

theorem foldl_qsDict_vals : ∀ (pairs : List (List Char × List Char))
    (acc : List (List Char × List (List Char))),
    (∀ e ∈ acc, e.2 ≠ []) → ∀ e ∈ pairs.foldl qsDictAppend acc, e.2 ≠ [] := by
  intro pairs
  induction pairs with
  | nil => intro acc h; exact h
  | cons pr rest ih =>
    intro acc h
    rw [List.foldl_cons]
    apply ih
    intro e he
    rw [qsDictAppend] at he
    by_cases hany : acc.any (fun x => x.1 = pr.1) = true
    · rw [if_pos hany] at he
      obtain ⟨e', he', hfe⟩ := List.mem_map.mp he
      by_cases hc : e'.1 = pr.1
      · rw [if_pos hc] at hfe
        rw [← hfe]
        simp
      · rw [if_neg hc] at hfe
        rw [← hfe]
        exact h e' he'
    · rw [if_neg hany] at he
      rcases List.mem_append.mp he with he | he
      · exact h e he
      · simp only [List.mem_singleton] at he
        rw [he]
        simp

theorem pyParseQs_nodup (qs : List Char) : ((pyParseQs qs).map Prod.fst).Nodup := by
  rw [pyParseQs]
  exact foldl_qsDict_nodup _ [] (by simp)

theorem pyParseQs_vals (qs : List Char) : ∀ e ∈ pyParseQs qs, e.2 ≠ [] := by
  rw [pyParseQs]
  exact foldl_qsDict_vals _ [] (by simp)

theorem pySortedPairs_nodup {d : List (List Char × List (List Char))}
    (h : (d.map Prod.fst).Nodup) : ((pySortedPairs d).map Prod.fst).Nodup := by
  have hperm := @sortByLt_perm _ (fun a b => strLtB a.1 b.1) d
  exact (hperm.map Prod.fst).symm.nodup h

theorem pySortedPairs_vals {d : List (List Char × List (List Char))}
    (h : ∀ e ∈ d, e.2 ≠ []) : ∀ e ∈ pySortedPairs d, e.2 ≠ [] :=
  fun e he => h e (sortByLt_mem he)

/-- The full query canonicalization
`urlencode(sorted(parse_qs(q).items()), doseq=True)` is idempotent. -/
theorem pyCanonQuery_idem (q : List Char) :
    pyCanonQuery (pyCanonQuery q) = pyCanonQuery q := by
  show pyUrlencode (pySortedPairs (pyParseQs (pyUrlencode (pySortedPairs (pyParseQs q)))))
    = pyUrlencode (pySortedPairs (pyParseQs q))
  by_cases hS : pySortedPairs (pyParseQs q) = []
  · rw [hS]
    rfl
  · have hvals : ∀ e ∈ pySortedPairs (pyParseQs q), e.2 ≠ [] :=
      pySortedPairs_vals (pyParseQs_vals q)
    have hnodup : ((pySortedPairs (pyParseQs q)).map Prod.fst).Nodup :=
      pySortedPairs_nodup (pyParseQs_nodup q)
    have hsorted : SortedB (fun a b => strLtB a.1 b.1) (pySortedPairs (pyParseQs q)) :=
      sortByLt_sorted (fun a b hab => strLtB_asym a.1 b.1 hab)
        (fun a b c h1 h2 => strLtB_negTrans a.1 b.1 c.1 h1 h2) _
    have hparse : pyParseQs (pyUrlencode (pySortedPairs (pyParseQs q)))
        = pySortedPairs (pyParseQs q) := by
      rw [pyParseQs, parseQsl_urlencode _ hS hvals]
      exact groupPairs_flattenq _ hnodup hvals
    rw [hparse]
    exact congrArg pyUrlencode (sortByLt_of_sorted hsorted)

/-! ## `urlsplit` stage decomposition -/

theorem pyUrlsplitL_eq (url ds : List Char) :
    pyUrlsplitL url ds = pyUrlsplitStages url ds := by
  simp only [pyUrlsplitL, pyUrlsplitStages, splitNetlocStage]
  rcases hsp : splitScheme (cleanUrl url) (cleanUrl ds) with ⟨sch, rest⟩
  by_cases h2 : rest.take 2 = ['/', '/']
  · rw [if_pos h2]
    cases hfr : breakAtChar '#' ((rest.drop 2).dropWhile (fun c => !netlocStop c)) with
    | none =>
      cases hq : breakAtChar '?' ((rest.drop 2).dropWhile (fun c => !netlocStop c)) with
      | none => simp [hq]
      | some pr => rcases pr with ⟨a, b⟩; simp [hq]
    | some pr =>
      rcases pr with ⟨a, b⟩
      cases hq : breakAtChar '?' a with
      | none => simp [hq]
      | some pr2 => rcases pr2 with ⟨x, y⟩; simp [hq]
  · rw [if_neg h2]
    cases hfr : breakAtChar '#' rest with
    | none =>
      cases hq : breakAtChar '?' rest with
      | none => simp [hq]
      | some pr => rcases pr with ⟨a, b⟩; simp [hq]
    | some pr =>
      rcases pr with ⟨a, b⟩
      cases hq : breakAtChar '?' a with
      | none => simp [hq]
      | some pr2 => rcases pr2 with ⟨x, y⟩; simp [hq]

/-! ## `str.lower()` character lemmas -/

theorem pyLowerChar_toNat (c : Char) : (pyLowerChar c).toNat =
    if 65 ≤ c.toNat ∧ c.toNat ≤ 90 then c.toNat + 32 else c.toNat := by
  rw [pyLowerChar]
  by_cases h : 'A' ≤ c ∧ c ≤ 'Z'
  · rw [if_pos h]
    have h1 := char_le_iff_toNat.mp h.1
    have h2 := char_le_iff_toNat.mp h.2
    rw [show ('A').toNat = 65 from rfl] at h1
    rw [show ('Z').toNat = 90 from rfl] at h2
    rw [if_pos ⟨h1, h2⟩]
    exact charToNat_ofNat (by omega)
  · rw [if_neg h]
    have hn : ¬(65 ≤ c.toNat ∧ c.toNat ≤ 90) := by
      intro hc
      exact h ⟨char_le_iff_toNat.mpr (by rw [show ('A').toNat = 65 from rfl]; exact hc.1),
               char_le_iff_toNat.mpr (by rw [show ('Z').toNat = 90 from rfl]; exact hc.2)⟩
    rw [if_neg hn]

theorem pyLowerChar_idem (c : Char) : pyLowerChar (pyLowerChar c) = pyLowerChar c := by
  rw [char_eq_iff_toNat]
  simp only [pyLowerChar_toNat]
  split_ifs <;> omega

theorem pyLowerStr_idem (l : List Char) : pyLowerStr (pyLowerStr l) = pyLowerStr l := by
  simp only [pyLowerStr, List.map_map]
  apply List.map_congr_left
  intro c _
  exact pyLowerChar_idem c

theorem canonNetloc_lower_fix (s0 n0 : List Char) :
    pyLowerStr (canonNetloc s0 n0) = canonNetloc s0 n0 := by
  have hdrop : ∀ k, pyLowerStr (dropLastN k (pyLowerStr n0))
      = dropLastN k (pyLowerStr n0) := by
    intro k
    rw [dropLastN]
    simp only [pyLowerStr, List.map_take, List.map_map, List.length_map]
    congr 1
    apply List.map_congr_left
    intro c _
    exact pyLowerChar_idem c
  simp only [canonNetloc]
  split_ifs
  · exact hdrop 3
  · exact hdrop 4
  · exact pyLowerStr_idem n0

/-- When the cleaned path still ends in `'/'`, it is exactly `"/"`. -/
theorem canonPath_no_slash_end (p : List Char)
    (h : hasSuffix (canonPath p) "/".data = true) : canonPath p = "/".data := by
  rw [canonPath] at h ⊢
  by_cases hc : p ≠ "/".data ∧ hasSuffix p "/".data = true
  · rw [if_pos hc] at h
    have hr := rstripSlashes_not_slash_end p
    rw [show (['/'] : List Char) = "/".data from rfl] at hr
    rw [hr] at h
    exact absurd h (by simp)
  · rw [if_neg hc] at h ⊢
    rw [not_and_or] at hc
    rcases hc with hc | hc
    · simpa using hc
    · exact absurd h hc

/-- `canonPath` is idempotent: its output never ends in `'/'` unless it is
exactly `"/"`. -/
theorem canonPath_idem (p : List Char) : canonPath (canonPath p) = canonPath p := by
  rw [canonPath]
  by_cases h : canonPath p ≠ "/".data ∧ hasSuffix (canonPath p) "/".data = true
  · exact absurd (canonPath_no_slash_end p h.2) h.1
  · rw [if_neg h]

/-! ## The output alphabet of `urlencode` -/

theorem mem_joinChar {sep : Char} {ps : List (List Char)} {c : Char}
    (h : c ∈ joinChar sep ps) : c = sep ∨ ∃ p ∈ ps, c ∈ p := by
  induction ps with
  | nil => simp [joinChar] at h
  | cons p ps' ih =>
    cases ps' with
    | nil => exact Or.inr ⟨p, by simp, h⟩
    | cons r qs =>
      have he : joinChar sep (p :: r :: qs) = p ++ sep :: joinChar sep (r :: qs) := rfl
      rw [he] at h
      rcases List.mem_append.mp h with h | h
      · exact Or.inr ⟨p, by simp, h⟩
      · rcases List.mem_cons.mp h with rfl | h
        · exact Or.inl rfl
        · rcases ih h with h | ⟨w, hw, hcw⟩
          · exact Or.inl h
          · exact Or.inr ⟨w, by simp [hw], hcw⟩

theorem urlencode_chars {S : List (List Char × List (List Char))} {c : Char}
    (h : c ∈ pyUrlencode S) :
    alwaysSafeChar c = true ∨ c = '+' ∨ c = '%' ∨ isHexUpperDigit c = true ∨
      c = '&' ∨ c = '=' := by
  rw [pyUrlencode] at h
  rcases mem_joinChar h with rfl | ⟨piece, hp, hcp⟩
  · exact Or.inr (Or.inr (Or.inr (Or.inr (Or.inl rfl))))
  · obtain ⟨kv, -, hpk⟩ := mem_concatMap.mp hp
    obtain ⟨v, -, hv⟩ := List.mem_map.mp hpk
    rw [← hv] at hcp
    rcases List.mem_append.mp hcp with hc | hc
    · rcases quotePlus_chars c hc with h | h | h | h
      · exact Or.inl h
      · exact Or.inr (Or.inl h)
      · exact Or.inr (Or.inr (Or.inl h))
      · exact Or.inr (Or.inr (Or.inr (Or.inl h)))
    · rcases List.mem_cons.mp hc with rfl | hc
      · exact Or.inr (Or.inr (Or.inr (Or.inr (Or.inr rfl))))
      · rcases quotePlus_chars c hc with h | h | h | h
        · exact Or.inl h
        · exact Or.inr (Or.inl h)
        · exact Or.inr (Or.inr (Or.inl h))
        · exact Or.inr (Or.inr (Or.inr (Or.inl h)))

theorem safeChar_ge {c : Char} (h : alwaysSafeChar c = true) : 45 ≤ c.toNat := by
  rw [alwaysSafeChar, isAsciiAlpha, isAsciiUpper, isAsciiLower, isAsciiDigit] at h
  simp only [Bool.or_eq_true, decide_eq_true_eq] at h
  rcases h with (((((h | h) | h) | rfl) | rfl) | rfl) | rfl
  · have := char_le_iff_toNat.mp h.1
    rw [show ('A').toNat = 65 from rfl] at this
    omega
  · have := char_le_iff_toNat.mp h.1
    rw [show ('a').toNat = 97 from rfl] at this
    omega
  · have := char_le_iff_toNat.mp h.1
    rw [show ('0').toNat = 48 from rfl] at this
    omega
  · decide
  · decide
  · decide
  · decide

theorem hexDigit_ge {c : Char} (h : isHexUpperDigit c = true) : 48 ≤ c.toNat := by
  rw [isHexUpperDigit] at h
  simp only [Bool.or_eq_true, decide_eq_true_eq] at h
  rcases h with ⟨h1, h2⟩ | ⟨h1, h2⟩
  · have := char_le_iff_toNat.mp h1
    rw [show ('0').toNat = 48 from rfl] at this
    omega
  · have := char_le_iff_toNat.mp h1
    rw [show ('A').toNat = 65 from rfl] at this
    omega

theorem encChar_facts {c : Char}
    (h : alwaysSafeChar c = true ∨ c = '+' ∨ c = '%' ∨ isHexUpperDigit c = true ∨
      c = '&' ∨ c = '=') :
    badUrlChar c = false ∧ c ≠ '#' := by
  have hge : 37 ≤ c.toNat ∧ c.toNat ≠ 35 := by
    rcases h with h | rfl | rfl | h | rfl | rfl
    · have := safeChar_ge h
      omega
    · decide
    · decide
    · have := hexDigit_ge h
      omega
    · decide
    · decide
  constructor
  · rw [badUrlChar]
    simp only [Bool.or_eq_false_iff, decide_eq_false_iff_not]
    refine ⟨⟨fun hc => ?_, fun hc => ?_⟩, fun hc => ?_⟩
    · rw [char_eq_iff_toNat, show ('\t').toNat = 9 from rfl] at hc
      omega
    · rw [char_eq_iff_toNat, show ('\r').toNat = 13 from rfl] at hc
      omega
    · rw [char_eq_iff_toNat, show ('\n').toNat = 10 from rfl] at hc
      omega
  · intro hc
    rw [char_eq_iff_toNat, show ('#').toNat = 35 from rfl] at hc
    omega

theorem canonQuery_chars {q0 : List Char} {c : Char} (h : c ∈ pyCanonQuery q0) :
    badUrlChar c = false ∧ c ≠ '#' := by
  rw [pyCanonQuery] at h
  exact encChar_facts (urlencode_chars h)

/-! ## Re-parsing a canonically unparsed URL -/

theorem pyUrlunsplitL_canonical (s nl p q : List Char)
    (hs_ne : s ≠ []) (hnl_ne : nl ≠ [])
    (hp_shape : p = [] ∨ p.take 1 = ['/']) :
    pyUrlunsplitL ⟨s, nl, p, q, []⟩ =
      s ++ ':' :: '/' :: '/' :: ((nl ++ p) ++ (if q ≠ [] then '?' :: q else [])) := by
  have hinner : ¬(p ≠ [] ∧ p.take 1 ≠ ['/']) := by
    rcases hp_shape with rfl | h1
    · intro hc; exact hc.1 rfl
    · intro hc; exact hc.2 h1
  simp only [pyUrlunsplitL]
  rw [if_pos (Or.inl hnl_ne), if_neg hinner, if_pos hs_ne]
  rw [if_neg (show ¬(([] : List Char) ≠ []) from fun hc => hc rfl)]
  by_cases hq : q = []
  · rw [if_neg (fun hc => hc hq), if_neg (fun hc => hc hq)]
    simp
  · rw [if_pos hq, if_pos hq]
    simp

theorem splitScheme_canonical (s rest0 : List Char)
    (hs_col : ':' ∉ s) (hs_ne : s ≠ [])
    (hs_alpha : isAsciiAlpha s.headI = true) (hs_all : s.all schemeChar = true)
    (hs_low : pyLowerStr s = s) :
    splitScheme (s ++ ':' :: rest0) [] = (s, rest0) := by
  rw [splitScheme, breakAtChar_append rest0 hs_col]
  show (if s ≠ [] ∧ isAsciiAlpha s.headI = true ∧ s.all schemeChar = true
        then (pyLowerStr s, rest0) else ([], s ++ ':' :: rest0)) = (s, rest0)
  rw [if_pos ⟨hs_ne, hs_alpha, hs_all⟩, hs_low]

theorem pyUrlsplitL_canonical (s nl p q : List Char)
    (hs_col : ':' ∉ s) (hs_ne : s ≠ [])
    (hs_alpha : isAsciiAlpha s.headI = true) (hs_all : s.all schemeChar = true)
    (hs_low : pyLowerStr s = s)
    (hs_bad : ∀ c ∈ s, badUrlChar c = false)
    (hnl_stop : ∀ c ∈ nl, netlocStop c = false)
    (hnl_bad : ∀ c ∈ nl, badUrlChar c = false)
    (hnl_br : '[' ∈ nl ↔ ']' ∈ nl)
    (hp_shape : p = [] ∨ p.take 1 = ['/'])
    (hp_q : '?' ∉ p) (hp_h : '#' ∉ p)
    (hp_bad : ∀ c ∈ p, badUrlChar c = false)
    (hq_h : '#' ∉ q)
    (hq_bad : ∀ c ∈ q, badUrlChar c = false) :
    pyUrlsplitL
      (s ++ ':' :: '/' :: '/' :: ((nl ++ p) ++ (if q ≠ [] then '?' :: q else []))) []
      = some ⟨s, nl, p, q, []⟩ := by
  have hqt_bad : ∀ c ∈ (if q ≠ [] then '?' :: q else []), badUrlChar c = false := by
    split
    · intro c hc
      rcases List.mem_cons.mp hc with rfl | hc
      · rfl
      · exact hq_bad c hc
    · intro c hc
      simp at hc
  have hqt_h : '#' ∉ (if q ≠ [] then '?' :: q else []) := by
    split
    · intro hc
      rcases List.mem_cons.mp hc with hc | hc
      · exact absurd hc (by decide)
      · exact hq_h hc
    · simp
  have hall : ∀ c ∈ s ++ ':' :: '/' :: '/' ::
      ((nl ++ p) ++ (if q ≠ [] then '?' :: q else [])), badUrlChar c = false := by
    intro c hc
    rcases List.mem_append.mp hc with hc | hc
    · exact hs_bad c hc
    · rcases List.mem_cons.mp hc with rfl | hc
      · rfl
      · rcases List.mem_cons.mp hc with rfl | hc
        · rfl
        · rcases List.mem_cons.mp hc with rfl | hc
          · rfl
          · rcases List.mem_append.mp hc with hc | hc
            · rcases List.mem_append.mp hc with hc | hc
              · exact hnl_bad c hc
              · exact hp_bad c hc
            · exact hqt_bad c hc
  have hclean : cleanUrl (s ++ ':' :: '/' :: '/' ::
      ((nl ++ p) ++ (if q ≠ [] then '?' :: q else []))) =
      s ++ ':' :: '/' :: '/' :: ((nl ++ p) ++ (if q ≠ [] then '?' :: q else [])) := by
    rw [cleanUrl]
    apply List.filter_eq_self.mpr
    intro a ha
    rw [hall a ha]
    rfl
  have hsp := splitScheme_canonical s
    ('/' :: '/' :: ((nl ++ p) ++ (if q ≠ [] then '?' :: q else [])))
    hs_col hs_ne hs_alpha hs_all hs_low
  have hnet : splitNetlocStage
      ('/' :: '/' :: ((nl ++ p) ++ (if q ≠ [] then '?' :: q else [])))
      = (nl, p ++ (if q ≠ [] then '?' :: q else [])) := by
    rw [splitNetlocStage]
    rw [if_pos (show (('/' :: '/' :: ((nl ++ p) ++
      (if q ≠ [] then '?' :: q else []))).take 2 = ['/', '/']) from rfl)]
    rw [show ('/' :: '/' :: ((nl ++ p) ++
      (if q ≠ [] then '?' :: q else []))).drop 2 =
      (nl ++ p) ++ (if q ≠ [] then '?' :: q else []) from rfl]
    rw [List.append_assoc]
    have hb : p ++ (if q ≠ [] then '?' :: q else []) = [] ∨
        ∃ c t, p ++ (if q ≠ [] then '?' :: q else []) = c :: t ∧
          (fun c => !netlocStop c) c = false := by
      rcases hp_shape with rfl | h1
      · simp only [List.nil_append]
        by_cases hq0 : q = []
        · left
          simp [hq0]
        · right
          refine ⟨'?', q, ?_, by decide⟩
          rw [if_pos hq0]
      · rcases p with _ | ⟨c, t⟩
        · exact absurd h1 (by simp)
        · have hc : c = '/' := by simpa using h1
          subst hc
          exact Or.inr ⟨'/', t ++ (if q ≠ [] then '?' :: q else []), by simp, by decide⟩
    have ht := takeWhile_append_eq (p := fun c => !netlocStop c)
      (p ++ (if q ≠ [] then '?' :: q else []))
      (fun c hc => by show (!netlocStop c) = true; rw [hnl_stop c hc]; rfl) hb
    rw [ht.1, ht.2]
  have hbr : ¬(('[' ∈ nl ∧ ']' ∉ nl) ∨ (']' ∈ nl ∧ '[' ∉ nl)) := by
    intro hc
    rcases hc with ⟨h1, h2⟩ | ⟨h1, h2⟩
    · exact h2 (hnl_br.mp h1)
    · exact h2 (hnl_br.mpr h1)
  have hfr : breakAtChar '#' (p ++ (if q ≠ [] then '?' :: q else [])) = none :=
    breakAtChar_of_not_mem (by
      intro hc
      rcases List.mem_append.mp hc with hc | hc
      · exact hp_h hc
      · exact hqt_h hc)
  rw [pyUrlsplitL_eq]
  simp only [pyUrlsplitStages]
  rw [show cleanUrl ([] : List Char) = [] from rfl]
  rw [hclean]
  simp only [hsp, hnet]
  rw [if_neg hbr]
  simp only [hfr, Option.getD_none]
  by_cases hq0 : q = []
  · subst hq0
    have hq' : breakAtChar '?' (p ++ (if ([] : List Char) ≠ []
        then '?' :: ([] : List Char) else [])) = none := by
      rw [if_neg (fun hc => hc rfl), List.append_nil]
      exact breakAtChar_of_not_mem hp_q
    simp only [hq', Option.getD_none]
    simp
  · have hq' : breakAtChar '?' (p ++ (if q ≠ [] then '?' :: q else []))
        = some (p, q) := by
      rw [if_pos hq0]
      exact breakAtChar_append q hp_q
    simp only [hq', Option.getD_some]

theorem pyUrlparseL_canonical (s nl p q : List Char)
    (hs_col : ':' ∉ s) (hs_ne : s ≠ [])
    (hs_alpha : isAsciiAlpha s.headI = true) (hs_all : s.all schemeChar = true)
    (hs_low : pyLowerStr s = s)
    (hs_bad : ∀ c ∈ s, badUrlChar c = false)
    (hnl_stop : ∀ c ∈ nl, netlocStop c = false)
    (hnl_bad : ∀ c ∈ nl, badUrlChar c = false)
    (hnl_br : '[' ∈ nl ↔ ']' ∈ nl)
    (hp_shape : p = [] ∨ p.take 1 = ['/'])
    (hp_q : '?' ∉ p) (hp_h : '#' ∉ p) (hp_semi : ';' ∉ p)
    (hp_bad : ∀ c ∈ p, badUrlChar c = false)
    (hq_h : '#' ∉ q)
    (hq_bad : ∀ c ∈ q, badUrlChar c = false) :
    pyUrlparseL
      (s ++ ':' :: '/' :: '/' :: ((nl ++ p) ++ (if q ≠ [] then '?' :: q else []))) []
      = some ⟨s, nl, p, [], q, []⟩ := by
  rw [pyUrlparseL, pyUrlsplitL_canonical s nl p q hs_col hs_ne hs_alpha hs_all hs_low
    hs_bad hnl_stop hnl_bad hnl_br hp_shape hp_q hp_h hp_bad hq_h hq_bad]
  simp only [Option.map_some']
  rw [if_neg (fun hc => hp_semi hc.2)]

/-- The component transformation of `normalize_url` fixes already-canonical
components. -/
theorem normTransform_fix (s0 n0 p0 q0 : List Char)
    (hs : s0 = "http".data ∨ s0 = "https".data)
    (hnl_low : pyLowerStr n0 = n0)
    (hport : hasSuffix n0 ":80".data = false ∧ hasSuffix n0 ":443".data = false)
    (hpath : canonPath p0 = p0)
    (hquery : q0 = [] ∨ pyCanonQuery q0 = q0) :
    normTransform ⟨s0, n0, p0, [], q0, []⟩ = some ⟨s0, n0, p0, [], q0, []⟩ := by
  have hguard : ¬(s0 ≠ "http".data ∧ s0 ≠ "https".data) := by
    rcases hs with rfl | rfl
    · intro hc; exact hc.1 rfl
    · intro hc; exact hc.2 rfl
  have hcs : canonScheme s0 = s0 := by
    rcases hs with rfl | rfl <;> rfl
  have hcn : canonNetloc s0 n0 = n0 := by
    simp only [canonNetloc]
    rw [hnl_low]
    rw [if_neg (fun hc => by simp [hport.1] at hc)]
    rw [if_neg (fun hc => by simp [hport.2] at hc)]
  simp only [normTransform]
  rw [if_neg hguard, hcs, hcn, hpath]
  rcases hquery with rfl | hq
  · rw [if_neg (fun hc => hc rfl)]
  · by_cases hq0 : q0 = []
    · subst hq0
      rw [if_neg (fun hc => hc rfl)]
    · rw [if_pos hq0, hq]

/-- C3: amended.  `normalize_url` is idempotent on URLs whose parsed form is
well-behaved: an http(s) URL whose canonical netloc is nonempty, free of
delimiter and whitespace characters, bracket-balanced and not ending in an
explicit default port, whose cleaned path is absolute (or empty) and free of
`'?'`, `'#'`, `';'` and whitespace, and which carries no params component.
On such URLs a second `normalize_url` returns its input unchanged.  (Without
these conditions idempotence fails, see
`normalizeUrl_not_idempotent_counterexample`.) -/
theorem normalizeUrl_idem (url n : String) (pu : PyParsedUrl)
    (hp : pyUrlparseL url.data [] = some pu)
    (hnl_ne : canonNetloc pu.scheme pu.netloc ≠ [])
    (hnl_stop : ∀ c ∈ canonNetloc pu.scheme pu.netloc, netlocStop c = false)
    (hnl_bad : ∀ c ∈ canonNetloc pu.scheme pu.netloc, badUrlChar c = false)
    (hnl_br : '[' ∈ canonNetloc pu.scheme pu.netloc ↔
              ']' ∈ canonNetloc pu.scheme pu.netloc)
    (hport : hasSuffix (canonNetloc pu.scheme pu.netloc) ":80".data = false ∧
             hasSuffix (canonNetloc pu.scheme pu.netloc) ":443".data = false)
    (hpath : canonPath pu.path = [] ∨ (canonPath pu.path).take 1 = ['/'])
    (hpq : '?' ∉ canonPath pu.path) (hph : '#' ∉ canonPath pu.path)
    (hpsemi : ';' ∉ canonPath pu.path)
    (hpbad : ∀ c ∈ canonPath pu.path, badUrlChar c = false)
    (hparams : pu.params = [])
    (hn : pyNormalizeUrl url none = some n) :
    pyNormalizeUrl n none = some n := by
  rw [pyNormalizeUrl] at hn
  obtain ⟨l, hl, hmk⟩ := Option.map_eq_some'.mp hn
  rw [show Option.map String.data (none : Option String) = none from rfl] at hl
  simp only [normListL, Option.some_bind] at hl
  rw [hp] at hl
  simp only [Option.some_bind] at hl
  obtain ⟨tu, htr, hun⟩ := Option.map_eq_some'.mp hl
  have hscheme : pu.scheme = "http".data ∨ pu.scheme = "https".data := by
    by_contra hc
    push_neg at hc
    rw [normTransform, if_pos hc] at htr
    exact Option.noConfusion htr
  have hguard : ¬(pu.scheme ≠ "http".data ∧ pu.scheme ≠ "https".data) := by
    rcases hscheme with h | h
    · intro hc; exact hc.1 h
    · intro hc; exact hc.2 h
  have htu : tu = ⟨canonScheme pu.scheme, canonNetloc pu.scheme pu.netloc,
      canonPath pu.path, pu.params,
      (if pu.query ≠ [] then pyCanonQuery pu.query else []), []⟩ := by
    rw [normTransform, if_neg hguard] at htr
    exact (Option.some.inj htr).symm
  have hcs : canonScheme pu.scheme = pu.scheme := by
    rcases hscheme with h | h <;> rw [h] <;> rfl
  have htu' : tu = ⟨pu.scheme, canonNetloc pu.scheme pu.netloc, canonPath pu.path, [],
      (if pu.query ≠ [] then pyCanonQuery pu.query else []), []⟩ := by
    rw [htu, hcs, hparams]
  have hnd : n.data = l := by rw [← hmk]
  have hs_col : ':' ∉ pu.scheme := by
    rcases hscheme with h | h <;> rw [h] <;> decide
  have hs_ne : pu.scheme ≠ [] := by
    rcases hscheme with h | h <;> rw [h] <;> decide
  have hs_alpha : isAsciiAlpha pu.scheme.headI = true := by
    rcases hscheme with h | h <;> rw [h] <;> decide
  have hs_all : pu.scheme.all schemeChar = true := by
    rcases hscheme with h | h <;> rw [h] <;> decide
  have hs_low : pyLowerStr pu.scheme = pu.scheme := by
    rcases hscheme with h | h <;> rw [h] <;> decide
  have hs_bad : ∀ c ∈ pu.scheme, badUrlChar c = false := by
    rcases hscheme with h | h <;> rw [h] <;> decide
  have hcq_h : '#' ∉ (if pu.query ≠ [] then pyCanonQuery pu.query else []) := by
    split
    · intro hc
      exact (canonQuery_chars hc).2 rfl
    · simp
  have hcq_bad : ∀ c ∈ (if pu.query ≠ [] then pyCanonQuery pu.query else []),
      badUrlChar c = false := by
    split
    · intro c hc
      exact (canonQuery_chars hc).1
    · intro c hc
      simp at hc
  have hunp : pyUrlunparseL tu = pyUrlunsplitL ⟨pu.scheme,
      canonNetloc pu.scheme pu.netloc, canonPath pu.path,
      (if pu.query ≠ [] then pyCanonQuery pu.query else []), []⟩ := by
    rw [htu']
    simp only [pyUrlunparseL]
    rw [if_neg (show ¬(([] : List Char) ≠ []) from fun hc => hc rfl)]
  have hform := pyUrlunsplitL_canonical pu.scheme (canonNetloc pu.scheme pu.netloc)
    (canonPath pu.path) (if pu.query ≠ [] then pyCanonQuery pu.query else [])
    hs_ne hnl_ne hpath
  have hrep : pyUrlparseL n.data [] = some ⟨pu.scheme,
      canonNetloc pu.scheme pu.netloc, canonPath pu.path, [],
      (if pu.query ≠ [] then pyCanonQuery pu.query else []), []⟩ := by
    rw [hnd, ← hun, hunp, hform]
    exact pyUrlparseL_canonical pu.scheme (canonNetloc pu.scheme pu.netloc)
      (canonPath pu.path) (if pu.query ≠ [] then pyCanonQuery pu.query else [])
      hs_col hs_ne hs_alpha hs_all hs_low hs_bad hnl_stop hnl_bad hnl_br hpath
      hpq hph hpsemi hpbad hcq_h hcq_bad
  have hfix : normTransform ⟨pu.scheme, canonNetloc pu.scheme pu.netloc,
      canonPath pu.path, [], (if pu.query ≠ [] then pyCanonQuery pu.query else []), []⟩
      = some ⟨pu.scheme, canonNetloc pu.scheme pu.netloc, canonPath pu.path, [],
        (if pu.query ≠ [] then pyCanonQuery pu.query else []), []⟩ := by
    apply normTransform_fix
    · exact hscheme
    · exact canonNetloc_lower_fix pu.scheme pu.netloc
    · exact hport
    · exact canonPath_idem pu.path
    · by_cases hq0 : pu.query = []
      · left
        rw [if_neg (fun hc => hc hq0)]
      · right
        rw [if_pos hq0]
        exact pyCanonQuery_idem pu.query
  rw [pyNormalizeUrl]
  rw [show Option.map String.data (none : Option String) = none from rfl]
  simp only [normListL]
  simp only [Option.some_bind]
  rw [hrep]
  simp only [Option.some_bind]
  rw [hfix]
  simp only [Option.map_some']
  rw [← htu', hun, hmk]

/-- The spec's idempotence fails in general: a netloc carrying a doubled
default port loses one `":80"` suffix per pass. -/
theorem normalizeUrl_not_idempotent_counterexample :
    pyNormalizeUrl "http://a:80:80" none = some "http://a:80" ∧
    pyNormalizeUrl "http://a:80" none = some "http://a" ∧
    pyNormalizeUrl "http://a:80" none ≠ some "http://a:80" := by
  exact ⟨by decide, by decide, by decide⟩

theorem normalizeUrl_idem_witness :
    pyNormalizeUrl "http://example.com/a?a=2&b=1" none
      = some "http://example.com/a?a=2&b=1" :=
  normalizeUrl_idem "http://Example.com:80/a?b=1&a=2" "http://example.com/a?a=2&b=1"
    ⟨"http".data, "Example.com:80".data, "/a".data, [], "b=1&a=2".data, []⟩
    (by decide) (by decide) (by decide) (by decide) (by decide) (by decide)
    (by decide) (by decide) (by decide) (by decide) (by decide) (by decide)
    (by decide)

end Scraper
